import Mathlib

/-!
# dna_ext: the SP-GiST k-mer trie callbacks and the comparators

A shallow embedding of the four decision functions of the k-mer trie of
src/spgist_kmer.c (`spgist_kmer_choose`, `spgist_kmer_picksplit`,
`spgist_kmer_inner_consistent`, `spgist_kmer_leaf_consistent`), of the two
comparators `kmer_compare_internal` (src/type_kmer.c) and
`dna_compare_internal` (src/type_dna.c), of the text codec `kmer_in` and
`kmer_out` (src/type_kmer.c) with `is_valid_nucleotide` (src/dna_utils.c), of
`complement_nucleotide` and `dna_reverse_complement` (src/dna_utils.c),
`dna_is_palindrome` (src/funcs.c), the k-mer hashes and `dna_kmer_hashes`
(src/hash_ops.c), and of the data they work on.

Conventions of the embedding.

* A C `char` is its integer value (`CChar := Int`); the character constants
  of `iupac.h` are the ASCII codes.
* `int` quantities that are lengths, levels, counts and array indices are
  `Nat`.
* A C array together with its element count (`nodeLabels` / `nNodes`,
  `datums` / `nTuples`, `scankeys` / `nkeys`) is a `List`; the count is the
  length of the list.
* A read `p->data[i]` past the bytes of the value is undefined in C; the
  embedding makes it explicit: the function returns `none`.
* A field of an output structure that the function never writes is `none`.
* The C library's `memcmp` is a parameter of the functions that call it; what
  the library promises about it is `MemcmpContract`.
* An `ereport(ERROR, ...)` is an `Except.error`.
-/

namespace DnaExt

/-- A C `char`, as its integer value. -/
abbrev CChar := Int

/-- Constant `IUPAC_A` of iupac.h, the character 'A'. -/
abbrev IUPAC_A : CChar := 65
/-- Constant `IUPAC_C` of iupac.h, the character 'C'. -/
abbrev IUPAC_C : CChar := 67
/-- Constant `IUPAC_G` of iupac.h, the character 'G'. -/
abbrev IUPAC_G : CChar := 71
/-- Constant `IUPAC_T` of iupac.h, the character 'T'. -/
abbrev IUPAC_T : CChar := 84

/-- The `kmer` struct of dna.h: the length field `k` and the flexible array
`data` (the bytes stored after the header). -/
structure kmer where
  k : Nat
  data : List CChar
deriving DecidableEq

/-- Representation invariant of a `kmer` value: `kmer_in` and `kmer_recv`
allocate exactly `k` data bytes and fill all of them. -/
def kmer.wf (x : kmer) : Prop := x.data.length = x.k

instance (x : kmer) : Decidable x.wf := by
  unfold kmer.wf; infer_instance

/-- The `KmerTrieNode` struct of spgist_kmer.c. -/
structure KmerTrieNode where
  level : Nat
  nucleotide : CChar
  is_leaf : Bool
deriving DecidableEq

/-! ## spgist_kmer_choose -/

/-- The fields of `spgChooseIn` that `spgist_kmer_choose` reads. A null
`prefixDatum` is `none`. -/
structure spgChooseIn where
  datum : kmer
  prefixDatum : Option KmerTrieNode
  nodeLabels : List CChar
deriving DecidableEq

/-- What `spgist_kmer_choose` writes to `spgChooseOut`: the `resultType` tag
with the members of the union it selects. `matchNode.nodeN` is `none` when the
function returns without writing it; `matchNode.levelAdd` and
`matchNode.restDatum` are written on no path. -/
inductive spgChooseOut where
  | spgMatchNode (nodeN : Option Nat)
  | spgAddNode (nodeLabel : CChar) (nodeN : Nat)
deriving DecidableEq

/-- Line 46: `int level = node ? node->level : 0;` -/
def chooseLevel (inp : spgChooseIn) : Nat :=
  match inp.prefixDatum with
  | some node => node.level
  | none => 0

/-- The search loop of `spgist_kmer_choose` (lines 59-68), started at child
index `i`: the first label equal to `nucleotide` ends the function with
`spgMatchNode`; when the labels run out the function falls through to
`spgAddNode` (lines 70-82). -/
def chooseLoop (nucleotide : CChar) : List CChar → Nat → spgChooseOut
  | [], _ => spgChooseOut.spgAddNode nucleotide 0
  | label :: rest, i =>
    if label = nucleotide then spgChooseOut.spgMatchNode (some i)
    else chooseLoop nucleotide rest (i + 1)

/-- Function `spgist_kmer_choose` (lines 38-83). `none`: the read `k->data[level]`
falls outside the data of the key. The `KmerTrieNode` allocated at lines 75-78
is stored nowhere in the output and is not part of the result. -/
def spgist_kmer_choose (inp : spgChooseIn) : Option spgChooseOut :=
  let k := inp.datum
  let level := chooseLevel inp
  if level ≥ k.k then
    some (spgChooseOut.spgMatchNode none)
  else
    match k.data[level]? with
    | none => none
    | some nucleotide => some (chooseLoop nucleotide inp.nodeLabels 0)

/-! ## spgist_kmer_picksplit -/

/-- The fields of `spgPickSplitIn` that `spgist_kmer_picksplit` reads. -/
structure spgPickSplitIn where
  datums : List kmer
  level : Nat
deriving DecidableEq

/-- What `spgist_kmer_picksplit` writes to `spgPickSplitOut`. An entry of
`mapTuplesToNodes` is `none` when the function leaves that cell of the freshly
allocated array unwritten. `hasPrefix` is written on no path. -/
structure spgPickSplitOut where
  nNodes : Nat
  nodeLabels : List CChar
  mapTuplesToNodes : List (Option Nat)
  leafTupleDatums : List kmer
  prefixDatum : KmerTrieNode
deriving DecidableEq

/-- Line 100: `char nucleotides[4] = {'A', 'C', 'G', 'T'};` -/
def nucleotides : List CChar := [IUPAC_A, IUPAC_C, IUPAC_G, IUPAC_T]

/-- Increment `counts[i]++`. -/
def incrCount (counts : List Nat) (i : Nat) : List Nat :=
  counts.set i (counts.getD i 0 + 1)

/-- The `switch (nucleotide)` of lines 108-114; it has no default case. -/
def countNucleotide (counts : List Nat) (nucleotide : CChar) : List Nat :=
  if nucleotide = IUPAC_A then incrCount counts 0
  else if nucleotide = IUPAC_C then incrCount counts 1
  else if nucleotide = IUPAC_G then incrCount counts 2
  else if nucleotide = IUPAC_T then incrCount counts 3
  else counts

/-- The counting loop, lines 102-116. -/
def countLoop (level : Nat) : List kmer → List Nat → Option (List Nat)
  | [], counts => some counts
  | k :: rest, counts =>
    if level < k.k then
      match k.data[level]? with
      | none => none
      | some nucleotide => countLoop level rest (countNucleotide counts nucleotide)
    else countLoop level rest counts

/-- The loop of lines 119-124: `num_nodes` counts the non-zero counters. -/
def countNodes (counts : List Nat) : Nat :=
  counts.foldl (fun num_nodes c => if c > 0 then num_nodes + 1 else num_nodes) 0

/-- The loop of lines 133-141: the label of every non-zero counter, appended
at `node_index` in the order of the `nucleotides` array. -/
def labelLoop (counts : List Nat) : List CChar :=
  (counts.zip nucleotides).foldl
    (fun labels p => if p.1 > 0 then labels ++ [p.2] else labels) []

/-- The inner loop of lines 150-162 over `j`, with the running `node_index`:
`some node_index` is the value written to `mapTuplesToNodes[i]` before the
`break`; `none` when the loop ends without writing. -/
def findNode (nucleotide : CChar) : List Nat → List CChar → Nat → Option Nat
  | c :: counts, n :: nucs, node_index =>
    if c > 0 then
      if n = nucleotide then some node_index
      else findNode nucleotide counts nucs (node_index + 1)
    else findNode nucleotide counts nucs node_index
  | _, _, _ => none

/-- The mapping loop, lines 144-166. The read `k->data[level]` of line 147 is
not guarded by `level < k->k`. -/
def mapLoop (level : Nat) (counts : List Nat) : List kmer → Option (List (Option Nat))
  | [] => some []
  | k :: rest =>
    match k.data[level]? with
    | none => none
    | some nucleotide =>
      match mapLoop level counts rest with
      | none => none
      | some m => some (findNode nucleotide counts nucleotides 0 :: m)

/-- Function `spgist_kmer_picksplit` (lines 89-177). `none`: a read `k->data[level]`
falls outside the data of a key. -/
def spgist_kmer_picksplit (inp : spgPickSplitIn) : Option spgPickSplitOut :=
  let level := inp.level
  match countLoop level inp.datums [0, 0, 0, 0] with
  | none => none
  | some counts =>
    let num_nodes := countNodes counts
    match mapLoop level counts inp.datums with
    | none => none
    | some m =>
      some { nNodes := num_nodes
             nodeLabels := labelLoop counts
             mapTuplesToNodes := m
             leafTupleDatums := inp.datums
             prefixDatum := { level := level + 1, nucleotide := 0, is_leaf := false } }

/-! ## spgist_kmer_inner_consistent -/

/-- Constant `BTLessStrategyNumber` of the host's access/stratnum.h. -/
abbrev BTLessStrategyNumber : Nat := 1
/-- Constant `BTLessEqualStrategyNumber` of the host's access/stratnum.h. -/
abbrev BTLessEqualStrategyNumber : Nat := 2
/-- Constant `BTEqualStrategyNumber` of the host's access/stratnum.h. -/
abbrev BTEqualStrategyNumber : Nat := 3
/-- Constant `BTGreaterEqualStrategyNumber` of the host's access/stratnum.h. -/
abbrev BTGreaterEqualStrategyNumber : Nat := 4
/-- Constant `BTGreaterStrategyNumber` of the host's access/stratnum.h. -/
abbrev BTGreaterStrategyNumber : Nat := 5

/-- The fields of the host's `ScanKeyData` that the callbacks read: the
strategy number and the k-mer argument. -/
structure ScanKeyData where
  sk_strategy : Nat
  sk_argument : kmer
deriving DecidableEq

/-- The fields of `spgInnerConsistentIn` that
`spgist_kmer_inner_consistent` reads. -/
structure spgInnerConsistentIn where
  scankeys : List ScanKeyData
  level : Nat
  nodeLabels : List CChar
deriving DecidableEq

/-- What `spgist_kmer_inner_consistent` writes to `spgInnerConsistentOut`:
`nodeNumbers` and `levelAdds` hold the cells written so far, cells
`0 .. nNodes - 1` of the two arrays allocated with `in->nNodes` cells. -/
structure spgInnerConsistentOut where
  nNodes : Nat
  nodeNumbers : List Nat
  levelAdds : List Nat
deriving DecidableEq

/-- The loop over the children, lines 212-221, from child `j` on. `cap` is
the number of cells of the output arrays (`in->nNodes`); a write to cell
`out->nNodes` with `out->nNodes >= cap` is outside the arrays: `none`. -/
def innerMatchLoop (cap : Nat) (target_nucleotide : CChar) :
    List CChar → Nat → spgInnerConsistentOut → Option spgInnerConsistentOut
  | [], _, out => some out
  | node_nucleotide :: rest, j, out =>
    if node_nucleotide = target_nucleotide then
      if out.nNodes < cap then
        innerMatchLoop cap target_nucleotide rest (j + 1)
          { nNodes := out.nNodes + 1
            nodeNumbers := out.nodeNumbers ++ [j]
            levelAdds := out.levelAdds ++ [1] }
      else none
    else innerMatchLoop cap target_nucleotide rest (j + 1) out

/-- The loop over the scan keys, lines 199-224. Only a key whose strategy is
`BTEqualStrategyNumber` has a branch; every other key is passed over. -/
def innerKeyLoop (level : Nat) (nodeLabels : List CChar) :
    List ScanKeyData → spgInnerConsistentOut → Option spgInnerConsistentOut
  | [], out => some out
  | key :: rest, out =>
    if key.sk_strategy = BTEqualStrategyNumber then
      let query_kmer := key.sk_argument
      if level < query_kmer.k then
        match query_kmer.data[level]? with
        | none => none
        | some target_nucleotide =>
          match innerMatchLoop nodeLabels.length target_nucleotide nodeLabels 0 out with
          | none => none
          | some out1 => innerKeyLoop level nodeLabels rest out1
      else innerKeyLoop level nodeLabels rest out
    else innerKeyLoop level nodeLabels rest out

/-- Function `spgist_kmer_inner_consistent` (lines 183-227). `none`: a read
`query_kmer->data[level]` outside the data of a key, or a write outside the
output arrays. -/
def spgist_kmer_inner_consistent (inp : spgInnerConsistentIn) :
    Option spgInnerConsistentOut :=
  innerKeyLoop inp.level inp.nodeLabels inp.scankeys
    { nNodes := 0, nodeNumbers := [], levelAdds := [] }

/-! ## The comparators (type_kmer.c, type_dna.c)

Both comparators call the C library's `memcmp`. The library fixes only the
sign of its result (the sign of the difference of the first differing pair of
bytes, read as `unsigned char`); the functions below therefore take the
`memcmp` in use as a parameter. `memcmpDiff` and `memcmpSign` are two
libraries' `memcmp`, and `MemcmpContract` is the library's contract. -/

/-- The `dna` struct of dna.h: the bytes stored after the length header.
`VARSIZE_ANY_EXHDR` of a value is the number of these bytes. -/
structure dna where
  data : List CChar
deriving DecidableEq

/-- Value of a `char` converted to `unsigned char`. -/
def ubyte (c : CChar) : Int := c % 256

/-- A `memcmp` that returns the difference of the first pair of bytes that
differ among the first `n`, the bytes read as `unsigned char`, and 0 when there
is none. -/
def memcmpDiff : List CChar → List CChar → Nat → Int
  | x :: xs, y :: ys, n + 1 =>
    if ubyte x = ubyte y then memcmpDiff xs ys n else ubyte x - ubyte y
  | _, _, _ => 0

/-- A `memcmp` that returns only -1, 0 or 1. -/
def memcmpSign (a b : List CChar) (n : Nat) : Int := Int.sign (memcmpDiff a b n)

/-- Contract of the C library's `memcmp`: when both objects hold at least `n`
bytes, the sign of the result is the sign of the difference of the first pair
of bytes that differ. Nothing is promised about a call that reads past the end
of an object. -/
def MemcmpContract (memcmp : List CChar → List CChar → Nat → Int) : Prop :=
  ∀ a b n, n ≤ a.length → n ≤ b.length →
    Int.sign (memcmp a b n) = Int.sign (memcmpDiff a b n)

/-- Function `kmer_compare_internal` of type_kmer.c (lines 135-150). -/
def kmer_compare_internal (memcmp : List CChar → List CChar → Nat → Int)
    (a b : kmer) : Int :=
  if a.k < b.k then -1
  else if a.k > b.k then 1
  else memcmp a.data b.data a.k

/-- Function `dna_compare_internal` of type_dna.c (lines 106-125). -/
def dna_compare_internal (memcmp : List CChar → List CChar → Nat → Int)
    (a b : dna) : Int :=
  let len_a := a.data.length
  let len_b := b.data.length
  let result := memcmp a.data b.data (min len_a len_b)
  if result ≠ 0 then result
  else if len_a < len_b then -1
  else if len_a > len_b then 1
  else 0

/-! ## spgist_kmer_leaf_consistent -/

/-- The fields of `spgLeafConsistentIn` that `spgist_kmer_leaf_consistent`
reads. -/
structure spgLeafConsistentIn where
  scankeys : List ScanKeyData
  leafDatum : kmer
deriving DecidableEq

/-- What `spgist_kmer_leaf_consistent` writes to `spgLeafConsistentOut`. -/
structure spgLeafConsistentOut where
  recheck : Bool
  leafValue : kmer
deriving DecidableEq

/-- The `switch (key->sk_strategy)` of lines 247-282: the value assigned to
`match` for one scan key. -/
def leafKeyMatch (memcmp : List CChar → List CChar → Nat → Int)
    (leaf_kmer : kmer) (key : ScanKeyData) : Bool :=
  if key.sk_strategy = BTEqualStrategyNumber then
    decide (kmer_compare_internal memcmp leaf_kmer key.sk_argument = 0)
  else if key.sk_strategy = BTLessStrategyNumber then
    decide (kmer_compare_internal memcmp leaf_kmer key.sk_argument < 0)
  else if key.sk_strategy = BTLessEqualStrategyNumber then
    decide (kmer_compare_internal memcmp leaf_kmer key.sk_argument ≤ 0)
  else if key.sk_strategy = BTGreaterStrategyNumber then
    decide (kmer_compare_internal memcmp leaf_kmer key.sk_argument > 0)
  else if key.sk_strategy = BTGreaterEqualStrategyNumber then
    decide (kmer_compare_internal memcmp leaf_kmer key.sk_argument ≥ 0)
  else false

/-- The loop over the scan keys, lines 243-286, with the current value of
`match`: each key assigns `match`, and the loop is left at the first key that
assigns false. -/
def leafKeyLoop (memcmp : List CChar → List CChar → Nat → Int) (leaf_kmer : kmer) :
    List ScanKeyData → Bool → Bool
  | [], matched => matched
  | key :: rest, _ =>
    let matched := leafKeyMatch memcmp leaf_kmer key
    if !matched then matched
    else leafKeyLoop memcmp leaf_kmer rest matched

/-- Function `spgist_kmer_leaf_consistent` (lines 233-292): the boolean
returned and the output structure. `match` starts as false (line 240). -/
def spgist_kmer_leaf_consistent (memcmp : List CChar → List CChar → Nat → Int)
    (inp : spgLeafConsistentIn) : Bool × spgLeafConsistentOut :=
  let leaf_kmer := inp.leafDatum
  let matched := leafKeyLoop memcmp leaf_kmer inp.scankeys false
  (matched, { recheck := false, leafValue := inp.leafDatum })

/-! ## kmer_in (type_kmer.c) and is_valid_nucleotide (dna_utils.c) -/

/-- Constant `IUPAC_R` of iupac.h, the character 'R'. -/
abbrev IUPAC_R : CChar := 82
/-- Constant `IUPAC_Y` of iupac.h, the character 'Y'. -/
abbrev IUPAC_Y : CChar := 89
/-- Constant `IUPAC_S` of iupac.h, the character 'S'. -/
abbrev IUPAC_S : CChar := 83
/-- Constant `IUPAC_W` of iupac.h, the character 'W'. -/
abbrev IUPAC_W : CChar := 87
/-- Constant `IUPAC_K` of iupac.h, the character 'K'. -/
abbrev IUPAC_K : CChar := 75
/-- Constant `IUPAC_M` of iupac.h, the character 'M'. -/
abbrev IUPAC_M : CChar := 77
/-- Constant `IUPAC_B` of iupac.h, the character 'B'. -/
abbrev IUPAC_B : CChar := 66
/-- Constant `IUPAC_D` of iupac.h, the character 'D'. -/
abbrev IUPAC_D : CChar := 68
/-- Constant `IUPAC_H_CODE` of iupac.h, the character 'H'. -/
abbrev IUPAC_H_CODE : CChar := 72
/-- Constant `IUPAC_V` of iupac.h, the character 'V'. -/
abbrev IUPAC_V : CChar := 86
/-- Constant `IUPAC_N` of iupac.h, the character 'N'. -/
abbrev IUPAC_N : CChar := 78
/-- Constant `IUPAC_GAP` of iupac.h, the character '-'. -/
abbrev IUPAC_GAP : CChar := 45

/-- The C library's `toupper` in the C locale: the letters 'a'..'z' (97..122)
are mapped to 'A'..'Z', every other value is returned unchanged. -/
def toupper (c : CChar) : CChar :=
  if 97 ≤ c ∧ c ≤ 122 then c - 32 else c

/-- Function `is_valid_nucleotide` of dna_utils.c (lines 207-215). -/
def is_valid_nucleotide (c : CChar) : Bool :=
  let c := toupper c
  (c == IUPAC_A || c == IUPAC_C || c == IUPAC_G || c == IUPAC_T ||
   c == IUPAC_R || c == IUPAC_Y || c == IUPAC_S || c == IUPAC_W ||
   c == IUPAC_K || c == IUPAC_M || c == IUPAC_B || c == IUPAC_D ||
   c == IUPAC_H_CODE || c == IUPAC_V || c == IUPAC_N || c == IUPAC_GAP)

/-- The two errors that `kmer_in` reports with `ereport(ERROR, ...)`: the
empty k-mer (lines 22-25) and an invalid character, with the character of the
message (lines 31-34). -/
inductive KmerInError where
  | emptyKmer
  | invalidCharacter (c : CChar)
deriving DecidableEq

/-- The validation loop of `kmer_in` (lines 28-35): the first character of
the string whose upper case is not a valid nucleotide, if there is one. -/
def kmerInValidate : List CChar → Option CChar
  | [] => none
  | ch :: rest =>
    let c := toupper ch
    if !is_valid_nucleotide c then some ch
    else kmerInValidate rest

/-- Function `kmer_in` of type_kmer.c (lines 13-48). The argument is the C
string without its terminator; `strlen` is the length of the list. -/
def kmer_in (str : List CChar) : Except KmerInError kmer :=
  let len := str.length
  if len = 0 then Except.error KmerInError.emptyKmer
  else
    match kmerInValidate str with
    | some ch => Except.error (KmerInError.invalidCharacter ch)
    | none => Except.ok { k := len, data := str.map toupper }

/-! ## kmer_out (type_kmer.c) -/

/-- The C string held by a buffer that is followed by a terminator: the bytes
before the first NUL byte. -/
def cstring (buf : List CChar) : List CChar :=
  buf.takeWhile (fun c => decide (c ≠ 0))

/-- Function `kmer_out` of type_kmer.c (lines 53-64): the C string made of the
`k` bytes copied from `data`. `none`: the `memcpy` reads past the data of the
key. -/
def kmer_out (x : kmer) : Option (List CChar) :=
  if x.k ≤ x.data.length then some (cstring (x.data.take x.k)) else none

/-! ## complement_nucleotide, dna_reverse_complement (dna_utils.c) and
dna_is_palindrome (funcs.c) -/

/-- The table `complement_map` of dna_utils.c (lines 195-202), by index: the
twenty designated entries, every other entry 0. -/
def complement_map (i : Int) : CChar :=
  if i = 65 then 84          -- ['A'] = 'T'
  else if i = 84 then 65     -- ['T'] = 'A'
  else if i = 67 then 71     -- ['C'] = 'G'
  else if i = 71 then 67     -- ['G'] = 'C'
  else if i = 97 then 116    -- ['a'] = 't'
  else if i = 116 then 97    -- ['t'] = 'a'
  else if i = 99 then 103    -- ['c'] = 'g'
  else if i = 103 then 99    -- ['g'] = 'c'
  else if i = 82 then 89     -- ['R'] = 'Y'
  else if i = 89 then 82     -- ['Y'] = 'R'
  else if i = 83 then 83     -- ['S'] = 'S'
  else if i = 87 then 87     -- ['W'] = 'W'
  else if i = 75 then 77     -- ['K'] = 'M'
  else if i = 77 then 75     -- ['M'] = 'K'
  else if i = 66 then 86     -- ['B'] = 'V'
  else if i = 86 then 66     -- ['V'] = 'B'
  else if i = 68 then 72     -- ['D'] = 'H'
  else if i = 72 then 68     -- ['H'] = 'D'
  else if i = 78 then 78     -- ['N'] = 'N'
  else if i = 45 then 45     -- ['-'] = '-'
  else 0

/-- Function `complement_nucleotide` of dna_utils.c (lines 229-239). -/
def complement_nucleotide (c : CChar) : CChar :=
  if c ≥ 0 ∧ c < 128 ∧ complement_map c ≠ 0 then complement_map c
  else c

/-- Function `dna_reverse_complement` of dna_utils.c (lines 118-142):
`result->data[i] = complement_nucleotide(seq[len - 1 - i])` for every `i`
below `len`. -/
def dna_reverse_complement (d : dna) : dna :=
  { data := (d.data.reverse).map complement_nucleotide }

/-- Function `dna_is_palindrome` of funcs.c (lines 59-84): the loop over
`i < len / 2` leaves with false at the first `i` for which
`complement_nucleotide(seq[i]) != seq[len - 1 - i]`. -/
def dna_is_palindrome (d : dna) : Bool :=
  let len := d.data.length
  let seq := d.data
  (List.range (len / 2)).all
    (fun i => decide ((seq[i]?).map complement_nucleotide = seq[len - 1 - i]?))

/-! ## Hash support (hash_ops.c) -/

/-- Function `kmer_hash` of hash_ops.c (lines 37-52). The host's `hash_any`
and the object representation of an `int32` (`int32_bytes`) are parameters;
the bytes hashed are read as `unsigned char`; `^` is on `uint32`. -/
def kmer_hash (hash_any : List Int → Nat) (int32_bytes : Nat → List Int) (k : kmer) : Nat :=
  let hash_value := hash_any (int32_bytes k.k)
  hash_value ^^^ hash_any ((k.data.take k.k).map ubyte)

/-- Function `kmer_hash_extended` of hash_ops.c (lines 54-70). The host's
`hash_any_extended` is a parameter. -/
def kmer_hash_extended (hash_any_extended : List Int → Nat → Nat)
    (int32_bytes : Nat → List Int) (k : kmer) (seed : Nat) : Nat :=
  let hash_value := hash_any_extended (int32_bytes k.k) seed
  hash_value ^^^ hash_any_extended ((k.data.take k.k).map ubyte) seed

/-- Function `nucleotide_to_int` of dna_utils.c (lines 244-255). -/
def nucleotide_to_int (c : CChar) : Int :=
  let u := toupper c
  if u = IUPAC_A then 0
  else if u = IUPAC_C then 1
  else if u = IUPAC_G then 2
  else if u = IUPAC_T then 3
  else -1

/-- Conversion of an `int` to `uint32`: the value modulo 2^32. -/
def toUInt32 (x : Int) : Nat := (x % 4294967296).toNat

/-- Function `rolling_hash_add_nucleotide` of hash_ops.c (lines 111-121), on
`uint32` values: the shift is modulo 2^32. -/
def rolling_hash_add_nucleotide (hash : Nat) (nucleotide : CChar) (_k : Nat) : Nat :=
  let base_value := toUInt32 (nucleotide_to_int nucleotide)
  if base_value = toUInt32 (-1) then hash
  else ((hash <<< 2) % 4294967296) ||| base_value

/-- Function `rolling_hash_remove_nucleotide` of hash_ops.c (lines 123-134).
`none`: the shift `1 << (k * 2)` of the `int` 1 is not defined when
`k * 2 >= 31`. -/
def rolling_hash_remove_nucleotide (hash : Nat) (nucleotide : CChar) (k : Nat) :
    Option Nat :=
  if k * 2 < 31 then
    let base_value := toUInt32 (nucleotide_to_int nucleotide)
    let mask := toUInt32 (((1 <<< (k * 2) : Nat) : Int) - 1)
    if base_value = toUInt32 (-1) then some hash
    else some (hash &&& mask)
  else none

/-- The two errors that `dna_kmer_hashes` reports with `ereport(ERROR, ...)`
(lines 154-162). -/
inductive KmerHashesError where
  | kOutOfRange
  | kTooLarge
deriving DecidableEq

/-- The second loop of `dna_kmer_hashes` (lines 175-182), from index `i` on,
with `n` elements still to produce: the elements `elems[i], elems[i + 1], ...`.
`none`: a read outside the sequence or an undefined shift. -/
def hashRollLoop (seq : List CChar) (k : Nat) : Nat → Nat → Nat → Option (List Nat)
  | 0, _, _ => some []
  | n + 1, i, rolling_hash =>
    match seq[i - 1]?, seq[i + k - 1]? with
    | some left, some right =>
      match rolling_hash_remove_nucleotide rolling_hash left k with
      | none => none
      | some h1 =>
        let h2 := rolling_hash_add_nucleotide h1 right k
        match hashRollLoop seq k n (i + 1) h2 with
        | none => none
        | some rest => some (h2 :: rest)
    | _, _ => none

/-- Function `dna_kmer_hashes` of hash_ops.c (lines 136-190): the elements of
the array returned. `none`: undefined behaviour inside the second loop. -/
def dna_kmer_hashes (d : dna) (k : Int) : Option (Except KmerHashesError (List Nat)) :=
  let seq_len := d.data.length
  let seq := d.data
  if k ≤ 0 ∨ k > seq_len then some (Except.error KmerHashesError.kOutOfRange)
  else if k > 16 then some (Except.error KmerHashesError.kTooLarge)
  else
    let num_kmers := seq_len - k.toNat + 1
    let first := (seq.take k.toNat).foldl
      (fun rolling_hash c => rolling_hash_add_nucleotide rolling_hash c k.toNat) 0
    match hashRollLoop seq k.toNat (num_kmers - 1) 1 first with
    | none => none
    | some rest => some (Except.ok (first :: rest))

/-! ## Notions used to state the properties -/

/-- Number of keys of the bucket that are longer than `level` and carry the
symbol `s` at position `level`. -/
def symCount (level : Nat) (datums : List kmer) (s : CChar) : Nat :=
  datums.countP (fun k => decide (level < k.k) && decide (k.data[level]? = some s))

/-- The hypothesis of the split claims: every key of the bucket is well
formed, longer than `level`, and has one of A, C, G, T at position `level`. -/
def canonicalAt (level : Nat) (datums : List kmer) : Prop :=
  ∀ key ∈ datums, key.wf ∧ level < key.k ∧
    ∃ s ∈ nucleotides, key.data[level]? = some s

/-- Indices `j, j + 1, ...` of the labels equal to `target`, in increasing
order. -/
def matchFrom (target : CChar) : List CChar → Nat → List Nat
  | [], _ => []
  | label :: rest, j =>
    if label = target then j :: matchFrom target rest (j + 1)
    else matchFrom target rest (j + 1)

/-- The scenario bucket AAAA, AAAC, AACG, CCCC. -/
def scenarioBucket : List kmer :=
  [⟨4, [IUPAC_A, IUPAC_A, IUPAC_A, IUPAC_A]⟩, ⟨4, [IUPAC_A, IUPAC_A, IUPAC_A, IUPAC_C]⟩,
   ⟨4, [IUPAC_A, IUPAC_A, IUPAC_C, IUPAC_G]⟩, ⟨4, [IUPAC_C, IUPAC_C, IUPAC_C, IUPAC_C]⟩]

/-- The values of a `char` (signed, as on the platforms where `char` is
`signed char`). -/
def isChar (c : CChar) : Prop := -128 ≤ c ∧ c ≤ 127

instance (c : CChar) : Decidable (isChar c) := by
  unfold isChar; infer_instance

/-- Every data byte of the key is a `char` value. -/
def kmer.chars (x : kmer) : Prop := ∀ c ∈ x.data, isChar c

instance (x : kmer) : Decidable x.chars := by
  unfold kmer.chars; infer_instance

/-- The five strategies that `spgist_kmer_leaf_consistent` has a case for. -/
def knownStrategy (strategy : Nat) : Prop :=
  strategy = BTEqualStrategyNumber ∨ strategy = BTLessStrategyNumber ∨
  strategy = BTLessEqualStrategyNumber ∨ strategy = BTGreaterStrategyNumber ∨
  strategy = BTGreaterEqualStrategyNumber

instance (strategy : Nat) : Decidable (knownStrategy strategy) := by
  unfold knownStrategy; infer_instance

/-- A predicate with the given strategy holds for the comparison result `c` of
the stored key with the bound: `== 0` for EQ, `< 0` for LT, `<= 0` for LE,
`> 0` for GT, `>= 0` for GE. -/
def strategyHolds (strategy : Nat) (c : Int) : Prop :=
  (strategy = BTEqualStrategyNumber ∧ c = 0) ∨
  (strategy = BTLessStrategyNumber ∧ c < 0) ∨
  (strategy = BTLessEqualStrategyNumber ∧ c ≤ 0) ∨
  (strategy = BTGreaterStrategyNumber ∧ c > 0) ∨
  (strategy = BTGreaterEqualStrategyNumber ∧ c ≥ 0)

instance (strategy : Nat) (c : Int) : Decidable (strategyHolds strategy c) := by
  unfold strategyHolds; infer_instance

/-- The sixteen IUPAC nucleotide codes: A C G T R Y S W K M B D H V N and the
gap '-'. -/
def iupacCodes : List CChar :=
  [IUPAC_A, IUPAC_C, IUPAC_G, IUPAC_T, IUPAC_R, IUPAC_Y, IUPAC_S, IUPAC_W,
   IUPAC_K, IUPAC_M, IUPAC_B, IUPAC_D, IUPAC_H_CODE, IUPAC_V, IUPAC_N, IUPAC_GAP]

/-- The keys of the bucket share an identical prefix of length `level`. -/
def sharePrefix (level : Nat) (datums : List kmer) : Prop :=
  ∀ a ∈ datums, ∀ b ∈ datums, a.data.take level = b.data.take level

instance (level : Nat) (datums : List kmer) : Decidable (sharePrefix level datums) := by
  unfold sharePrefix; infer_instance

/-- A linear scan of the key set: the keys for which every predicate holds
when the key is compared with the bound by `kmer_compare_internal`. -/
def linearScan (memcmp : List CChar → List CChar → Nat → Int)
    (scankeys : List ScanKeyData) (keys : List kmer) : List kmer :=
  keys.filter (fun s => decide (∀ key ∈ scankeys,
    strategyHolds key.sk_strategy (kmer_compare_internal memcmp s key.sk_argument)))

/-- The keys that a split mapped to child `j`: the group of child `j`. -/
def groupOf (datums : List kmer) (mapTuplesToNodes : List (Option Nat)) (j : Nat) :
    List kmer :=
  ((datums.zip mapTuplesToNodes).filter (fun p => p.2 = some j)).map Prod.fst

/-- The groups of a split, one per emitted child, in the order of the
children. -/
def splitGroups (out : spgPickSplitOut) : List (List kmer) :=
  (List.range out.nNodes).map (groupOf out.leafTupleDatums out.mapTuplesToNodes)

/-- Apply `f` to every group and collect the leaf buckets; `none` as soon as
`f` gives none for a group. -/
def splitEach (f : List kmer → Option (List (List kmer))) :
    List (List kmer) → Option (List (List kmer))
  | [] => some []
  | g :: gs =>
    match f g, splitEach f gs with
    | some a, some b => some (a ++ b)
    | _, _ => none

/-- The recursive application of `spgist_kmer_picksplit` of the split
termination property: a bucket of at most `C` keys is a leaf bucket; a larger
bucket is split at `level`, and every group is treated in the same way at the
level of the emitted node. The first argument bounds the depth of nested
applications; `none` when that bound is exhausted or a split is undefined. -/
def splitAll (C : Nat) : Nat → Nat → List kmer → Option (List (List kmer))
  | 0, _, bucket => if bucket.length ≤ C then some [bucket] else none
  | fuel + 1, level, bucket =>
    if bucket.length ≤ C then some [bucket]
    else
      match spgist_kmer_picksplit ⟨bucket, level⟩ with
      | none => none
      | some out => splitEach (splitAll C fuel out.prefixDatum.level) (splitGroups out)

/-- The keys of the bucket are pairwise distinct well-formed k-mers of the
common length `K` over A, C, G, T. -/
def distinctKeysOfLength (K : Nat) (bucket : List kmer) : Prop :=
  bucket.Nodup ∧ ∀ key ∈ bucket, key.wf ∧ key.k = K ∧ ∀ s ∈ key.data, s ∈ nucleotides

instance (K : Nat) (bucket : List kmer) : Decidable (distinctKeysOfLength K bucket) := by
  unfold distinctKeysOfLength; infer_instance

/-- The 2-bit encoding of a k-mer over A, C, G, T: A = 0, C = 1, G = 2, T = 3,
first symbol most significant, arithmetic modulo 2^32. -/
def encode2bit (kmer : List CChar) : Nat :=
  kmer.foldl (fun h c =>
    (h * 4 + (if c = IUPAC_A then 0 else if c = IUPAC_C then 1
              else if c = IUPAC_G then 2 else 3)) % 4294967296) 0

/-- The expected result of `dna_kmer_hashes`: the 2-bit encoding of the k-mer
that starts at each position `0 .. length - k`. -/
def expectedKmerHashes (seq : List CChar) (k : Nat) : List Nat :=
  (List.range (seq.length - k + 1)).map (fun i => encode2bit ((seq.drop i).take k))

/-! ## Theorems: spgist_kmer_choose -/

/-- In a well-formed key every position below `k` holds a symbol. -/
theorem kmer_read_some (x : kmer) (level : Nat) (hwf : x.wf) (hlt : level < x.k) :
    ∃ c, x.data[level]? = some c := by
  unfold kmer.wf at hwf
  exact ⟨x.data[level], List.getElem?_eq_getElem (by omega)⟩

/-- The search loop ends with `spgAddNode` when no label is the symbol. -/
theorem chooseLoop_absent (c : CChar) (labels : List CChar) (n : Nat)
    (h : c ∉ labels) : chooseLoop c labels n = spgChooseOut.spgAddNode c 0 := by
  induction labels generalizing n with
  | nil => rfl
  | cons l rest ih =>
    have hl : l ≠ c := fun e => h (by simp [e])
    have hr : c ∉ rest := fun e => h (by simp [e])
    simp [chooseLoop, hl, ih (n + 1) hr]

/-- The search loop ends with `spgMatchNode` at the first label equal to the
symbol. -/
theorem chooseLoop_present (c : CChar) (labels : List CChar) (n : Nat)
    (h : c ∈ labels) :
    ∃ i, labels[i]? = some c ∧ (∀ j, j < i → labels[j]? ≠ some c) ∧
      chooseLoop c labels n = spgChooseOut.spgMatchNode (some (n + i)) := by
  induction labels generalizing n with
  | nil => simp at h
  | cons l rest ih =>
    by_cases hl : l = c
    · refine ⟨0, by simp [hl], by simp, by simp [chooseLoop, hl]⟩
    · have hr : c ∈ rest := by
        rcases List.mem_cons.mp h with e | e
        · exact absurd e.symm hl
        · exact e
      obtain ⟨i, h1, h2, h3⟩ := ih (n + 1) hr
      refine ⟨i + 1, by simpa using h1, ?_, ?_⟩
      · intro j hj
        cases j with
        | zero => simpa using hl
        | succ j => simpa using h2 j (by omega)
      · simp [chooseLoop, hl, h3]; omega

/-- C1: when the node level is at least the length of the key,
`spgist_kmer_choose` returns at once with the result type `spgMatchNode`,
having written no child index and no new label (the Leaf report). -/
theorem choose_leaf (inp : spgChooseIn) (h : chooseLevel inp ≥ inp.datum.k) :
    spgist_kmer_choose inp = some (spgChooseOut.spgMatchNode none) := by
  simp [spgist_kmer_choose, h]

theorem choose_leaf_witness :
    chooseLevel ⟨⟨2, [IUPAC_A, IUPAC_C]⟩, some ⟨2, IUPAC_C, false⟩, [IUPAC_A, IUPAC_G]⟩ ≥ 2 ∧
    spgist_kmer_choose ⟨⟨2, [IUPAC_A, IUPAC_C]⟩, some ⟨2, IUPAC_C, false⟩, [IUPAC_A, IUPAC_G]⟩
      = some (spgChooseOut.spgMatchNode none) :=
  ⟨by decide, choose_leaf ⟨⟨2, [IUPAC_A, IUPAC_C]⟩, some ⟨2, IUPAC_C, false⟩, [IUPAC_A, IUPAC_G]⟩
    (by decide)⟩

/-- C2: when the level is below the length of the key and some child label
equals the symbol of the key at that level, `spgist_kmer_choose` reports
`spgMatchNode` with `nodeN = i`, the lowest child index whose label equals
that symbol. -/
theorem choose_descend (inp : spgChooseIn)
    (hlt : chooseLevel inp < inp.datum.k)
    (hmem : ∃ label ∈ inp.nodeLabels, inp.datum.data[chooseLevel inp]? = some label) :
    ∃ i, inp.nodeLabels[i]? = inp.datum.data[chooseLevel inp]? ∧
      (∀ j, j < i → inp.nodeLabels[j]? ≠ inp.datum.data[chooseLevel inp]?) ∧
      spgist_kmer_choose inp = some (spgChooseOut.spgMatchNode (some i)) := by
  obtain ⟨c, hc, hread⟩ := hmem
  obtain ⟨i, h1, h2, h3⟩ := chooseLoop_present c inp.nodeLabels 0 hc
  refine ⟨i, by rw [hread, h1], ?_, ?_⟩
  · intro j hj; rw [hread]; exact h2 j hj
  · have hnot : ¬ chooseLevel inp ≥ inp.datum.k := by omega
    simp only [spgist_kmer_choose, hnot, if_false, hread, h3, Nat.zero_add]

theorem choose_descend_witness :
    ∃ i, ([IUPAC_A, IUPAC_C, IUPAC_C] : List CChar)[i]? = some IUPAC_C ∧
      (∀ j, j < i → ([IUPAC_A, IUPAC_C, IUPAC_C] : List CChar)[j]? ≠ some IUPAC_C) ∧
      spgist_kmer_choose
        ⟨⟨2, [IUPAC_A, IUPAC_C]⟩, some ⟨1, IUPAC_A, false⟩, [IUPAC_A, IUPAC_C, IUPAC_C]⟩
        = some (spgChooseOut.spgMatchNode (some i)) :=
  choose_descend
    ⟨⟨2, [IUPAC_A, IUPAC_C]⟩, some ⟨1, IUPAC_A, false⟩, [IUPAC_A, IUPAC_C, IUPAC_C]⟩
    (by decide) ⟨IUPAC_C, by decide, by decide⟩

/-- C3: when the level is below the length of the key and no child label
equals the symbol of the key at that level, `spgist_kmer_choose` reports
`spgAddNode` whose label is exactly that symbol. -/
theorem choose_addchild (inp : spgChooseIn) (hwf : inp.datum.wf)
    (hlt : chooseLevel inp < inp.datum.k)
    (hnone : ∀ label ∈ inp.nodeLabels, inp.datum.data[chooseLevel inp]? ≠ some label) :
    ∃ c, inp.datum.data[chooseLevel inp]? = some c ∧
      spgist_kmer_choose inp = some (spgChooseOut.spgAddNode c 0) := by
  obtain ⟨c, hread⟩ := kmer_read_some inp.datum (chooseLevel inp) hwf hlt
  have habs : c ∉ inp.nodeLabels := fun hc => hnone c hc hread
  have hnot : ¬ chooseLevel inp ≥ inp.datum.k := by omega
  refine ⟨c, hread, ?_⟩
  simp only [spgist_kmer_choose, hnot, if_false, hread, chooseLoop_absent c _ 0 habs]

theorem choose_addchild_witness :
    ∃ c, ([IUPAC_A, IUPAC_G] : List CChar)[1]? = some c ∧
      spgist_kmer_choose ⟨⟨2, [IUPAC_A, IUPAC_G]⟩, some ⟨1, IUPAC_A, false⟩, [IUPAC_A, IUPAC_C]⟩
        = some (spgChooseOut.spgAddNode c 0) :=
  choose_addchild ⟨⟨2, [IUPAC_A, IUPAC_G]⟩, some ⟨1, IUPAC_A, false⟩, [IUPAC_A, IUPAC_C]⟩
    (by decide) (by decide) (by decide)

/-! ## Theorems: spgist_kmer_picksplit -/

/-- The counting loop adds to each of the four counters the number of keys
that carry its symbol, provided every read is inside its key. -/
theorem countLoop_counts (level : Nat) (datums : List kmer) (a c g t : Nat)
    (hwf : ∀ key ∈ datums, key.wf) :
    countLoop level datums [a, c, g, t] =
      some [a + symCount level datums IUPAC_A, c + symCount level datums IUPAC_C,
            g + symCount level datums IUPAC_G, t + symCount level datums IUPAC_T] := by
  induction datums generalizing a c g t with
  | nil => simp [countLoop, symCount]
  | cons key rest ih =>
    have hrest : ∀ key ∈ rest, key.wf := fun x hx => hwf x (by simp [hx])
    by_cases hlt : level < key.k
    · obtain ⟨s, hs⟩ := kmer_read_some key level (hwf key (by simp)) hlt
      simp only [countLoop, hlt, if_true, hs]
      by_cases hA : s = IUPAC_A
      · subst hA
        simp [countNucleotide, incrCount, ih _ _ _ _ hrest, symCount, List.countP_cons, hlt, hs]
        omega
      by_cases hC : s = IUPAC_C
      · subst hC
        simp [countNucleotide, incrCount, ih _ _ _ _ hrest, symCount, List.countP_cons, hlt, hs]
        omega
      by_cases hG : s = IUPAC_G
      · subst hG
        simp [countNucleotide, incrCount, ih _ _ _ _ hrest, symCount, List.countP_cons, hlt, hs]
        omega
      by_cases hT : s = IUPAC_T
      · subst hT
        simp [countNucleotide, incrCount, ih _ _ _ _ hrest, symCount, List.countP_cons, hlt, hs]
        omega
      · simp [countNucleotide, ih _ _ _ _ hrest, symCount, List.countP_cons, hlt, hs,
          hA, hC, hG, hT]
    · simp [countLoop, hlt, ih _ _ _ _ hrest, symCount, List.countP_cons]

/-- A counter is positive exactly when some key carries its symbol. -/
theorem symCount_pos (level : Nat) (datums : List kmer) (s : CChar) :
    0 < symCount level datums s ↔
      ∃ key ∈ datums, level < key.k ∧ key.data[level]? = some s := by
  simp [symCount, List.countP_pos_iff]

/-- The labels emitted for four counters: the symbols of the non-zero
counters, in the order A, C, G, T. -/
theorem labelLoop_four (a c g t : Nat) :
    labelLoop [a, c, g, t] =
      (if a > 0 then [IUPAC_A] else []) ++ (if c > 0 then [IUPAC_C] else []) ++
      (if g > 0 then [IUPAC_G] else []) ++ (if t > 0 then [IUPAC_T] else []) := by
  by_cases ha : a > 0 <;> by_cases hc : c > 0 <;> by_cases hg : g > 0 <;>
    by_cases ht : t > 0 <;> simp [labelLoop, nucleotides, ha, hc, hg, ht]

/-- The number of nodes announced is the number of labels emitted. -/
theorem countNodes_four (a c g t : Nat) :
    countNodes [a, c, g, t] = (labelLoop [a, c, g, t]).length := by
  rw [labelLoop_four]
  by_cases ha : a > 0 <;> by_cases hc : c > 0 <;> by_cases hg : g > 0 <;>
    by_cases ht : t > 0 <;> simp [countNodes, ha, hc, hg, ht]

/-- The inner search of the mapping loop finds, for a symbol with a non-zero
counter, the index at which its label was emitted. -/
theorem findNode_four (a c g t : Nat) (s : CChar)
    (hs : (s = IUPAC_A ∧ a > 0) ∨ (s = IUPAC_C ∧ c > 0) ∨
          (s = IUPAC_G ∧ g > 0) ∨ (s = IUPAC_T ∧ t > 0)) :
    ∃ n, findNode s [a, c, g, t] nucleotides 0 = some n ∧
      n < countNodes [a, c, g, t] ∧ (labelLoop [a, c, g, t])[n]? = some s := by
  rw [countNodes_four, labelLoop_four]
  rcases hs with ⟨rfl, h⟩ | ⟨rfl, h⟩ | ⟨rfl, h⟩ | ⟨rfl, h⟩ <;>
    by_cases ha : a > 0 <;> by_cases hc : c > 0 <;> by_cases hg : g > 0 <;>
    by_cases ht : t > 0 <;>
    first
    | omega
    | simp [findNode, nucleotides, ha, hc, hg, ht]

/-- The mapping loop, when every read is inside its key, writes for each key
the result of the inner search for its symbol. -/
theorem mapLoop_reads (level : Nat) (counts : List Nat) (datums : List kmer)
    (h : ∀ key ∈ datums, ∃ s, key.data[level]? = some s) :
    ∃ m, mapLoop level counts datums = some m ∧ m.length = datums.length ∧
      ∀ (i : Nat) (key : kmer), datums[i]? = some key → ∃ s, key.data[level]? = some s ∧
        m[i]? = some (findNode s counts nucleotides 0) := by
  induction datums with
  | nil => exact ⟨[], rfl, rfl, by simp⟩
  | cons key rest ih =>
    obtain ⟨s, hs⟩ := h key (by simp)
    obtain ⟨m, hm, hlen, hall⟩ := ih (fun x hx => h x (by simp [hx]))
    refine ⟨findNode s counts nucleotides 0 :: m, by simp [mapLoop, hs, hm], by simp [hlen], ?_⟩
    intro i x hx
    cases i with
    | zero =>
      simp at hx
      subst hx
      exact ⟨s, hs, by simp⟩
    | succ i =>
      simp at hx
      simpa using hall i x hx

/-- Membership in the emitted labels, for four counters. -/
theorem mem_labelLoop_four (a c g t : Nat) (s : CChar) :
    s ∈ labelLoop [a, c, g, t] ↔
      (s = IUPAC_A ∧ a > 0) ∨ (s = IUPAC_C ∧ c > 0) ∨
      (s = IUPAC_G ∧ g > 0) ∨ (s = IUPAC_T ∧ t > 0) := by
  rw [labelLoop_four]
  by_cases ha : a > 0 <;> by_cases hc : c > 0 <;> by_cases hg : g > 0 <;>
    by_cases ht : t > 0 <;> simp [ha, hc, hg, ht]

/-- The emitted labels are a sublist of A, C, G, T without repetition. -/
theorem labelLoop_four_sublist (a c g t : Nat) :
    (labelLoop [a, c, g, t]).Sublist nucleotides ∧ (labelLoop [a, c, g, t]).Nodup ∧
      (labelLoop [a, c, g, t]).length ≤ 4 := by
  rw [labelLoop_four]
  by_cases ha : a > 0 <;> by_cases hc : c > 0 <;> by_cases hg : g > 0 <;>
    by_cases ht : t > 0 <;> simp [nucleotides, ha, hc, hg, ht]

/-- The result of the split of a bucket of well-formed keys in which every key
is longer than `level`: the counters are the symbol counts. -/
theorem picksplit_eq (inp : spgPickSplitIn)
    (hwf : ∀ key ∈ inp.datums, key.wf ∧ inp.level < key.k) :
    ∃ m, mapLoop inp.level
        [symCount inp.level inp.datums IUPAC_A, symCount inp.level inp.datums IUPAC_C,
         symCount inp.level inp.datums IUPAC_G, symCount inp.level inp.datums IUPAC_T]
        inp.datums = some m ∧
      spgist_kmer_picksplit inp = some
        { nNodes := countNodes
            [symCount inp.level inp.datums IUPAC_A, symCount inp.level inp.datums IUPAC_C,
             symCount inp.level inp.datums IUPAC_G, symCount inp.level inp.datums IUPAC_T]
          nodeLabels := labelLoop
            [symCount inp.level inp.datums IUPAC_A, symCount inp.level inp.datums IUPAC_C,
             symCount inp.level inp.datums IUPAC_G, symCount inp.level inp.datums IUPAC_T]
          mapTuplesToNodes := m
          leafTupleDatums := inp.datums
          prefixDatum := { level := inp.level + 1, nucleotide := 0, is_leaf := false } } := by
  have hreads : ∀ key ∈ inp.datums, ∃ s, key.data[inp.level]? = some s :=
    fun key hk => kmer_read_some key inp.level (hwf key hk).1 (hwf key hk).2
  obtain ⟨m, hm, -, -⟩ := mapLoop_reads inp.level
    [symCount inp.level inp.datums IUPAC_A, symCount inp.level inp.datums IUPAC_C,
     symCount inp.level inp.datums IUPAC_G, symCount inp.level inp.datums IUPAC_T]
    inp.datums hreads
  refine ⟨m, hm, ?_⟩
  have hc := countLoop_counts inp.level inp.datums 0 0 0 0 (fun key hk => (hwf key hk).1)
  simp only [Nat.zero_add] at hc
  simp only [spgist_kmer_picksplit, hc, hm]

/-- C4: for a bucket in which every key is longer than `level` and has one of
A, C, G, T at position `level`, `spgist_kmer_picksplit` emits one child label
per distinct symbol observed at `level`: `nNodes` is the number of labels, the
labels are pairwise distinct, at most 4, listed in the order A, C, G, T, and a
symbol is a label if and only if some key has it at position `level`. -/
theorem picksplit_labels (inp : spgPickSplitIn)
    (h : canonicalAt inp.level inp.datums) :
    ∃ out, spgist_kmer_picksplit inp = some out ∧
      out.nNodes = out.nodeLabels.length ∧
      out.nodeLabels.Nodup ∧
      out.nodeLabels.length ≤ 4 ∧
      out.nodeLabels.Sublist [IUPAC_A, IUPAC_C, IUPAC_G, IUPAC_T] ∧
      ∀ s, s ∈ out.nodeLabels ↔ ∃ key ∈ inp.datums, key.data[inp.level]? = some s := by
  obtain ⟨m, -, hout⟩ := picksplit_eq inp (fun key hk => ⟨(h key hk).1, (h key hk).2.1⟩)
  obtain ⟨hsub, hnd, hlen⟩ := labelLoop_four_sublist
    (symCount inp.level inp.datums IUPAC_A) (symCount inp.level inp.datums IUPAC_C)
    (symCount inp.level inp.datums IUPAC_G) (symCount inp.level inp.datums IUPAC_T)
  refine ⟨_, hout, countNodes_four _ _ _ _, hnd, hlen, hsub, ?_⟩
  intro s
  simp only [mem_labelLoop_four, gt_iff_lt, symCount_pos]
  constructor
  · rintro (⟨rfl, key, hk, -, hr⟩ | ⟨rfl, key, hk, -, hr⟩ | ⟨rfl, key, hk, -, hr⟩ |
      ⟨rfl, key, hk, -, hr⟩) <;> exact ⟨key, hk, hr⟩
  · rintro ⟨key, hk, hr⟩
    obtain ⟨-, hlt, s1, hs1, hr1⟩ := h key hk
    have hs : s1 = s := by rw [hr1] at hr; exact Option.some.inj hr
    subst hs
    simp only [nucleotides, List.mem_cons, List.mem_singleton, List.not_mem_nil, or_false]
      at hs1
    rcases hs1 with e | e | e | e
    · exact Or.inl ⟨e, key, hk, hlt, e ▸ hr⟩
    · exact Or.inr (Or.inl ⟨e, key, hk, hlt, e ▸ hr⟩)
    · exact Or.inr (Or.inr (Or.inl ⟨e, key, hk, hlt, e ▸ hr⟩))
    · exact Or.inr (Or.inr (Or.inr ⟨e, key, hk, hlt, e ▸ hr⟩))

theorem scenarioBucket_canonical : canonicalAt 0 scenarioBucket := by
  unfold canonicalAt scenarioBucket
  decide

theorem picksplit_labels_witness :
    ∃ out, spgist_kmer_picksplit ⟨scenarioBucket, 0⟩ = some out ∧
      out.nNodes = out.nodeLabels.length ∧
      out.nodeLabels.Nodup ∧
      out.nodeLabels.length ≤ 4 ∧
      out.nodeLabels.Sublist [IUPAC_A, IUPAC_C, IUPAC_G, IUPAC_T] ∧
      ∀ s, s ∈ out.nodeLabels ↔ ∃ key ∈ scenarioBucket, key.data[0]? = some s :=
  picksplit_labels ⟨scenarioBucket, 0⟩ scenarioBucket_canonical

/-- C5: for a bucket in which every key is longer than `level` and has one of
A, C, G, T at position `level`, `spgist_kmer_picksplit` writes the whole
mapping: every key index `i` is mapped to a child index below `nNodes`, and
the label of that child is the symbol of key `i` at position `level`. -/
theorem picksplit_mapping (inp : spgPickSplitIn)
    (h : canonicalAt inp.level inp.datums) :
    ∃ out, spgist_kmer_picksplit inp = some out ∧
      out.mapTuplesToNodes.length = inp.datums.length ∧
      ∀ (i : Nat) (key : kmer), inp.datums[i]? = some key →
        ∃ n, out.mapTuplesToNodes[i]? = some (some n) ∧ n < out.nNodes ∧
          out.nodeLabels[n]? = key.data[inp.level]? := by
  obtain ⟨m, hm, hout⟩ := picksplit_eq inp (fun key hk => ⟨(h key hk).1, (h key hk).2.1⟩)
  have hreads : ∀ key ∈ inp.datums, ∃ s, key.data[inp.level]? = some s :=
    fun key hk => kmer_read_some key inp.level (h key hk).1 (h key hk).2.1
  obtain ⟨m1, hm1, hlen, hall⟩ := mapLoop_reads inp.level
    [symCount inp.level inp.datums IUPAC_A, symCount inp.level inp.datums IUPAC_C,
     symCount inp.level inp.datums IUPAC_G, symCount inp.level inp.datums IUPAC_T]
    inp.datums hreads
  have hmm : m1 = m := by rw [hm] at hm1; exact (Option.some.inj hm1).symm
  subst hmm
  refine ⟨_, hout, hlen, ?_⟩
  intro i key hi
  have hk : key ∈ inp.datums := List.getElem?_mem hi
  obtain ⟨s, hs, hmi⟩ := hall i key hi
  obtain ⟨-, hlt, s1, hs1, hr1⟩ := h key hk
  have hss : s1 = s := by rw [hr1] at hs; exact Option.some.inj hs
  subst hss
  have hpos : 0 < symCount inp.level inp.datums s1 :=
    (symCount_pos inp.level inp.datums s1).mpr ⟨key, hk, hlt, hr1⟩
  simp only [nucleotides, List.mem_cons, List.mem_singleton, List.not_mem_nil, or_false]
    at hs1
  have hcase : (s1 = IUPAC_A ∧ symCount inp.level inp.datums IUPAC_A > 0) ∨
      (s1 = IUPAC_C ∧ symCount inp.level inp.datums IUPAC_C > 0) ∨
      (s1 = IUPAC_G ∧ symCount inp.level inp.datums IUPAC_G > 0) ∨
      (s1 = IUPAC_T ∧ symCount inp.level inp.datums IUPAC_T > 0) := by
    rcases hs1 with e | e | e | e
    · exact Or.inl ⟨e, e ▸ hpos⟩
    · exact Or.inr (Or.inl ⟨e, e ▸ hpos⟩)
    · exact Or.inr (Or.inr (Or.inl ⟨e, e ▸ hpos⟩))
    · exact Or.inr (Or.inr (Or.inr ⟨e, e ▸ hpos⟩))
  obtain ⟨n, hn, hnlt, hlab⟩ := findNode_four _ _ _ _ s1 hcase
  exact ⟨n, by rw [hmi, hn], hnlt, by rw [hlab, hr1]⟩

theorem picksplit_mapping_witness :
    ∃ out, spgist_kmer_picksplit ⟨scenarioBucket, 0⟩ = some out ∧
      out.mapTuplesToNodes.length = scenarioBucket.length ∧
      ∀ (i : Nat) (key : kmer), scenarioBucket[i]? = some key →
        ∃ n, out.mapTuplesToNodes[i]? = some (some n) ∧ n < out.nNodes ∧
          out.nodeLabels[n]? = key.data[0]? :=
  picksplit_mapping ⟨scenarioBucket, 0⟩ scenarioBucket_canonical

/-- When every key carries the same symbol `s` at `level`, the mapping loop
writes the same cell value for every key. -/
theorem mapLoop_const (level : Nat) (counts : List Nat) (datums : List kmer) (s : CChar)
    (h : ∀ key ∈ datums, key.data[level]? = some s) :
    mapLoop level counts datums =
      some (List.replicate datums.length (findNode s counts nucleotides 0)) := by
  induction datums with
  | nil => rfl
  | cons key rest ih =>
    simp [mapLoop, h key (by simp), ih (fun x hx => h x (by simp [hx])),
      List.replicate_succ]

/-- When every key carries the same symbol `s` at `level`, the counter of `s`
is the size of the bucket and every other counter is zero. -/
theorem symCount_const (level : Nat) (datums : List kmer) (s s1 : CChar)
    (h : ∀ key ∈ datums, level < key.k ∧ key.data[level]? = some s) :
    symCount level datums s1 = if s1 = s then datums.length else 0 := by
  induction datums with
  | nil => simp [symCount]
  | cons key rest ih =>
    have hk := h key (by simp)
    have ih1 := ih (fun x hx => h x (by simp [hx]))
    unfold symCount at ih1 ⊢
    by_cases e : s1 = s
    · simp [List.countP_cons, hk.1, hk.2, e] at ih1 ⊢
      exact ih1
    · have e1 : ¬ s = s1 := fun x => e x.symm
      simp [List.countP_cons, hk.1, hk.2, e, e1] at ih1 ⊢
      exact ih1

/-- C7: for a non-empty bucket in which all keys are longer than `level` and
share the same symbol of A, C, G, T at position `level`,
`spgist_kmer_picksplit` succeeds with exactly one child, labelled with that
symbol, maps every key to child 0, and sets the level of the emitted node to
`level + 1`. -/
theorem picksplit_single_group (inp : spgPickSplitIn) (s : CChar)
    (hs : s ∈ nucleotides) (hne : inp.datums ≠ [])
    (h : ∀ key ∈ inp.datums, key.wf ∧ inp.level < key.k ∧
      key.data[inp.level]? = some s) :
    ∃ out, spgist_kmer_picksplit inp = some out ∧
      out.nNodes = 1 ∧ out.nodeLabels = [s] ∧
      out.mapTuplesToNodes = List.replicate inp.datums.length (some 0) ∧
      out.prefixDatum.level = inp.level + 1 := by
  obtain ⟨m, hm, hout⟩ := picksplit_eq inp (fun key hk => ⟨(h key hk).1, (h key hk).2.1⟩)
  have hcnt := fun s1 => symCount_const inp.level inp.datums s s1
    (fun key hk => (h key hk).2)
  have hmap := fun counts => mapLoop_const inp.level counts inp.datums s
    (fun key hk => (h key hk).2.2)
  rw [hmap] at hm
  have hm1 := (Option.some.inj hm).symm
  subst hm1
  obtain ⟨n, hn⟩ : ∃ n, inp.datums.length = n + 1 := by
    cases hd : inp.datums with
    | nil => exact absurd hd hne
    | cons x xs => exact ⟨xs.length, rfl⟩
  refine ⟨_, hout, ?_, ?_, ?_, rfl⟩
  all_goals
    simp only [nucleotides, List.mem_cons, List.mem_singleton, List.not_mem_nil, or_false]
      at hs
    rcases hs with rfl | rfl | rfl | rfl <;>
      simp [hcnt, hn, countNodes, labelLoop, findNode, nucleotides]

theorem picksplit_single_group_witness :
    ∃ out, spgist_kmer_picksplit
        ⟨[⟨2, [IUPAC_G, IUPAC_A]⟩, ⟨3, [IUPAC_G, IUPAC_T, IUPAC_T]⟩], 0⟩ = some out ∧
      out.nNodes = 1 ∧ out.nodeLabels = [IUPAC_G] ∧
      out.mapTuplesToNodes = List.replicate 2 (some 0) ∧
      out.prefixDatum.level = 0 + 1 :=
  picksplit_single_group ⟨[⟨2, [IUPAC_G, IUPAC_A]⟩, ⟨3, [IUPAC_G, IUPAC_T, IUPAC_T]⟩], 0⟩
    IUPAC_G (by decide) (by decide) (by decide)

/-- The mapping loop reads past the end of a key that is not longer than
`level`: the split of a bucket that holds such a key is undefined. -/
theorem mapLoop_exhausted (level : Nat) (counts : List Nat) (datums : List kmer)
    (key : kmer) (hk : key ∈ datums) (hwf : key.wf) (hge : level ≥ key.k) :
    mapLoop level counts datums = none := by
  induction datums with
  | nil => simp at hk
  | cons x rest ih =>
    rcases List.mem_cons.mp hk with e | e
    · subst e
      have : key.data[level]? = none := by
        unfold kmer.wf at hwf
        exact List.getElem?_eq_none (by omega)
      simp [mapLoop, this]
    · cases hx : x.data[level]? with
      | none => simp [mapLoop, hx]
      | some c => simp [mapLoop, hx, ih e]

/-- C6 (failing input): with the bucket A, AC at level 1 the key A is fully
consumed, and the mapping loop of `spgist_kmer_picksplit` reads its symbol at
position 1, past its single data byte. -/
theorem picksplit_exhausted_key_read :
    countLoop 1 [⟨1, [IUPAC_A]⟩, ⟨2, [IUPAC_A, IUPAC_C]⟩] [0, 0, 0, 0] = some [0, 1, 0, 0] ∧
    mapLoop 1 [0, 1, 0, 0] [⟨1, [IUPAC_A]⟩, ⟨2, [IUPAC_A, IUPAC_C]⟩] = none ∧
    spgist_kmer_picksplit ⟨[⟨1, [IUPAC_A]⟩, ⟨2, [IUPAC_A, IUPAC_C]⟩], 1⟩ = none := by
  decide

/-! ## Theorems: spgist_kmer_inner_consistent -/

/-- Membership in `matchFrom`: the offsets of the labels equal to `target`. -/
theorem mem_matchFrom (target : CChar) (labels : List CChar) (j i : Nat) :
    i ∈ matchFrom target labels j ↔ j ≤ i ∧ labels[i - j]? = some target := by
  induction labels generalizing j with
  | nil => simp [matchFrom]
  | cons l rest ih =>
    by_cases hl : l = target
    · simp only [matchFrom, hl, if_true, List.mem_cons, ih]
      constructor
      · rintro (rfl | ⟨h1, h2⟩)
        · simp
        · refine ⟨by omega, ?_⟩
          have : i - j = (i - (j + 1)) + 1 := by omega
          rw [this]; simpa using h2
      · rintro ⟨h1, h2⟩
        by_cases e : i = j
        · exact Or.inl e
        · refine Or.inr ⟨by omega, ?_⟩
          have : i - j = (i - (j + 1)) + 1 := by omega
          rw [this] at h2; simpa using h2
    · simp only [matchFrom, hl, if_false, ih]
      constructor
      · rintro ⟨h1, h2⟩
        refine ⟨by omega, ?_⟩
        have : i - j = (i - (j + 1)) + 1 := by omega
        rw [this]; simpa using h2
      · rintro ⟨h1, h2⟩
        by_cases e : i = j
        · subst e
          simp at h2
          exact absurd h2 hl
        · refine ⟨by omega, ?_⟩
          have : i - j = (i - (j + 1)) + 1 := by omega
          rw [this] at h2; simpa using h2

/-- The indices listed by `matchFrom` are strictly increasing. -/
theorem matchFrom_sorted (target : CChar) (labels : List CChar) (j : Nat) :
    (matchFrom target labels j).Pairwise (fun a b => a < b) := by
  induction labels generalizing j with
  | nil => simp [matchFrom]
  | cons l rest ih =>
    by_cases hl : l = target
    · simp only [matchFrom, hl, if_true, List.pairwise_cons]
      refine ⟨?_, ih (j + 1)⟩
      intro a ha
      have := ((mem_matchFrom target rest (j + 1) a).mp ha).1
      omega
    · simp only [matchFrom, hl, if_false]
      exact ih (j + 1)

/-- The loop over the children appends the matching indices, each with a
level delta of 1, and stays inside the output arrays as long as the cells
already written and the children still to visit fit in them. -/
theorem innerMatchLoop_spec (cap : Nat) (target : CChar) (labels : List CChar)
    (j : Nat) (out : spgInnerConsistentOut) (hcap : out.nNodes + labels.length ≤ cap) :
    innerMatchLoop cap target labels j out = some
      { nNodes := out.nNodes + (matchFrom target labels j).length
        nodeNumbers := out.nodeNumbers ++ matchFrom target labels j
        levelAdds := out.levelAdds ++ List.replicate (matchFrom target labels j).length 1 } := by
  induction labels generalizing j out with
  | nil => simp [innerMatchLoop, matchFrom]
  | cons l rest ih =>
    simp only [List.length_cons] at hcap
    by_cases hl : l = target
    · have hlt : out.nNodes < cap := by omega
      simp only [innerMatchLoop, hl, if_true, hlt, matchFrom]
      rw [ih]
      · simp [List.replicate_succ]
        omega
      · simp only []
        omega
    · simp only [innerMatchLoop, hl, if_false, matchFrom]
      exact ih (j + 1) out (by omega)

/-- C8: for a query key longer than `level`, `spgist_kmer_inner_consistent`
given the single predicate EQ(key) returns exactly the child indices whose
label equals the symbol of the key at position `level` (each once, in
increasing order), each paired with a level delta of 1, and returns no child
when no label equals that symbol. -/
theorem inner_consistent_eq (nodeLabels : List CChar) (level : Nat) (key : kmer)
    (hwf : key.wf) (hlt : level < key.k) :
    ∃ target out, key.data[level]? = some target ∧
      spgist_kmer_inner_consistent
        ⟨[⟨BTEqualStrategyNumber, key⟩], level, nodeLabels⟩ = some out ∧
      out.nNodes = out.nodeNumbers.length ∧
      (∀ j, j ∈ out.nodeNumbers ↔ nodeLabels[j]? = some target) ∧
      out.nodeNumbers.Pairwise (fun a b => a < b) ∧
      out.levelAdds = List.replicate out.nNodes 1 ∧
      (target ∉ nodeLabels → out.nNodes = 0) := by
  obtain ⟨target, hread⟩ := kmer_read_some key level hwf hlt
  have hloop := innerMatchLoop_spec nodeLabels.length target nodeLabels 0
    { nNodes := 0, nodeNumbers := [], levelAdds := [] } (by simp)
  simp only [Nat.zero_add, List.nil_append] at hloop
  refine ⟨target, ⟨(matchFrom target nodeLabels 0).length, matchFrom target nodeLabels 0,
    List.replicate (matchFrom target nodeLabels 0).length 1⟩, hread, ?_, ?_, ?_,
    matchFrom_sorted target nodeLabels 0, ?_, ?_⟩
  · simp only [spgist_kmer_inner_consistent, innerKeyLoop, if_true, hlt, hread, hloop]
  · rfl
  · intro j
    simp [mem_matchFrom]
  · rfl
  · intro habs
    have hnil : matchFrom target nodeLabels 0 = [] := by
      apply List.eq_nil_iff_forall_not_mem.mpr
      intro j hj
      have h2 := ((mem_matchFrom target nodeLabels 0 j).mp hj).2
      exact habs (List.getElem?_mem h2)
    simp [hnil]

theorem inner_consistent_eq_witness :
    ∃ target out, ([IUPAC_A, IUPAC_C] : List CChar)[0]? = some target ∧
      spgist_kmer_inner_consistent
        ⟨[⟨BTEqualStrategyNumber, ⟨2, [IUPAC_A, IUPAC_C]⟩⟩], 0,
         [IUPAC_A, IUPAC_C, IUPAC_A]⟩ = some out ∧
      out.nNodes = out.nodeNumbers.length ∧
      (∀ j, j ∈ out.nodeNumbers ↔ ([IUPAC_A, IUPAC_C, IUPAC_A] : List CChar)[j]? = some target) ∧
      out.nodeNumbers.Pairwise (fun a b => a < b) ∧
      out.levelAdds = List.replicate out.nNodes 1 ∧
      (target ∉ ([IUPAC_A, IUPAC_C, IUPAC_A] : List CChar) → out.nNodes = 0) :=
  inner_consistent_eq [IUPAC_A, IUPAC_C, IUPAC_A] 0 ⟨2, [IUPAC_A, IUPAC_C]⟩
    (by decide) (by decide)

/-- A scan key whose strategy is not `BTEqualStrategyNumber` leaves the output
untouched: the loop passes over it. -/
theorem innerKeyLoop_skip (level : Nat) (nodeLabels : List CChar) (key : ScanKeyData)
    (rest : List ScanKeyData) (out : spgInnerConsistentOut)
    (h : key.sk_strategy ≠ BTEqualStrategyNumber) :
    innerKeyLoop level nodeLabels (key :: rest) out =
      innerKeyLoop level nodeLabels rest out := by
  simp [innerKeyLoop, h]

/-- C9 (failing input): with the children A, C at level 0 and a single
ordering predicate whose bound is the key CC, `spgist_kmer_inner_consistent`
returns no child, for each of LT, LE, GT and GE; not even the child C, whose
label equals the bound's symbol. -/
theorem inner_consistent_ordering_returns_nothing :
    spgist_kmer_inner_consistent
      ⟨[⟨BTLessStrategyNumber, ⟨2, [IUPAC_C, IUPAC_C]⟩⟩], 0, [IUPAC_A, IUPAC_C]⟩
      = some ⟨0, [], []⟩ ∧
    spgist_kmer_inner_consistent
      ⟨[⟨BTLessEqualStrategyNumber, ⟨2, [IUPAC_C, IUPAC_C]⟩⟩], 0, [IUPAC_A, IUPAC_C]⟩
      = some ⟨0, [], []⟩ ∧
    spgist_kmer_inner_consistent
      ⟨[⟨BTGreaterStrategyNumber, ⟨2, [IUPAC_C, IUPAC_C]⟩⟩], 0, [IUPAC_A, IUPAC_C]⟩
      = some ⟨0, [], []⟩ ∧
    spgist_kmer_inner_consistent
      ⟨[⟨BTGreaterEqualStrategyNumber, ⟨2, [IUPAC_C, IUPAC_C]⟩⟩], 0, [IUPAC_A, IUPAC_C]⟩
      = some ⟨0, [], []⟩ := by
  decide

/-- C10 (failing input): with the children A, C at level 0 and the two
predicates EQ(AC) and EQ(CC), whose keys differ at position 0, each predicate
alone admits one child (child 0, child 1), and
`spgist_kmer_inner_consistent` given both returns the two children, not the
empty intersection. -/
theorem inner_consistent_two_eq_returns_union :
    spgist_kmer_inner_consistent
      ⟨[⟨BTEqualStrategyNumber, ⟨2, [IUPAC_A, IUPAC_C]⟩⟩], 0, [IUPAC_A, IUPAC_C]⟩
      = some ⟨1, [0], [1]⟩ ∧
    spgist_kmer_inner_consistent
      ⟨[⟨BTEqualStrategyNumber, ⟨2, [IUPAC_C, IUPAC_C]⟩⟩], 0, [IUPAC_A, IUPAC_C]⟩
      = some ⟨1, [1], [1]⟩ ∧
    spgist_kmer_inner_consistent
      ⟨[⟨BTEqualStrategyNumber, ⟨2, [IUPAC_A, IUPAC_C]⟩⟩,
        ⟨BTEqualStrategyNumber, ⟨2, [IUPAC_C, IUPAC_C]⟩⟩], 0, [IUPAC_A, IUPAC_C]⟩
      = some ⟨2, [0, 1], [1, 1]⟩ := by
  decide

/-- C14 (failing input): with the children A, C at level 0, the valid predicate
EQ(AC) and a predicate of the unknown strategy 6, in either order,
`spgist_kmer_inner_consistent` passes over the unknown predicate and returns
child 0, the child that EQ(AC) admits alone. -/
theorem inner_consistent_unknown_strategy_ignored :
    ¬ knownStrategy 6 ∧
    spgist_kmer_inner_consistent
      ⟨[⟨BTEqualStrategyNumber, ⟨2, [IUPAC_A, IUPAC_C]⟩⟩, ⟨6, ⟨2, [IUPAC_A, IUPAC_C]⟩⟩],
       0, [IUPAC_A, IUPAC_C]⟩ = some ⟨1, [0], [1]⟩ ∧
    spgist_kmer_inner_consistent
      ⟨[⟨6, ⟨2, [IUPAC_A, IUPAC_C]⟩⟩, ⟨BTEqualStrategyNumber, ⟨2, [IUPAC_A, IUPAC_C]⟩⟩],
       0, [IUPAC_A, IUPAC_C]⟩ = some ⟨1, [0], [1]⟩ := by
  decide

/-! ## Theorems: spgist_kmer_leaf_consistent -/

/-- The switch assigns true exactly when the predicate holds for the result of
the comparison; it assigns false for a strategy it has no case for. -/
theorem leafKeyMatch_iff (memcmp : List CChar → List CChar → Nat → Int)
    (leaf_kmer : kmer) (key : ScanKeyData) :
    leafKeyMatch memcmp leaf_kmer key = true ↔
      strategyHolds key.sk_strategy
        (kmer_compare_internal memcmp leaf_kmer key.sk_argument) := by
  unfold leafKeyMatch strategyHolds
  by_cases h3 : key.sk_strategy = 3
  · simp [h3]
  by_cases h1 : key.sk_strategy = 1
  · simp [h1]
  by_cases h2 : key.sk_strategy = 2
  · simp [h2]
  by_cases h5 : key.sk_strategy = 5
  · simp [h5]
  by_cases h4 : key.sk_strategy = 4
  · simp [h4]
  · simp [h1, h2, h3, h4, h5]

/-- The loop over a non-empty list of scan keys ends with `match` true exactly
when the switch assigns true for every key. -/
theorem leafKeyLoop_cons (memcmp : List CChar → List CChar → Nat → Int)
    (leaf_kmer : kmer) (key : ScanKeyData) (rest : List ScanKeyData) (matched : Bool) :
    leafKeyLoop memcmp leaf_kmer (key :: rest) matched = true ↔
      ∀ x ∈ key :: rest, leafKeyMatch memcmp leaf_kmer x = true := by
  induction rest generalizing key matched with
  | nil =>
    cases h : leafKeyMatch memcmp leaf_kmer key <;> simp [leafKeyLoop, h]
  | cons y ys ih =>
    cases h : leafKeyMatch memcmp leaf_kmer key
    · simp [leafKeyLoop, h]
    · have := ih y true
      simp only [leafKeyLoop, h, Bool.not_true] at this ⊢
      simp only [Bool.false_eq_true, if_false, List.mem_cons, forall_eq_or_imp, h, true_and]
      simpa [leafKeyLoop] using this

/-- The loop over a non-empty list of scan keys, entered with `match` false,
ends with `match` true exactly when every predicate holds. -/
theorem leafKeyLoop_holds (memcmp : List CChar → List CChar → Nat → Int)
    (leaf_kmer : kmer) (keys : List ScanKeyData) (hne : keys ≠ []) :
    leafKeyLoop memcmp leaf_kmer keys false = true ↔
      ∀ key ∈ keys, strategyHolds key.sk_strategy
        (kmer_compare_internal memcmp leaf_kmer key.sk_argument) := by
  cases keys with
  | nil => exact absurd rfl hne
  | cons key rest =>
    simp only [leafKeyLoop_cons, leafKeyMatch_iff]

/-- C11: for a non-empty list of predicates, `spgist_kmer_leaf_consistent`
reports a match if and only if every predicate holds when the stored key is
compared with the bound of the predicate by `kmer_compare_internal`
(`== 0` for EQ, `< 0` for LT, `<= 0` for LE, `> 0` for GT, `>= 0` for GE).
The equivalence holds for every non-empty list, in particular for the lists
whose strategies are all among the five. -/
theorem leaf_consistent_conjunction (memcmp : List CChar → List CChar → Nat → Int)
    (leaf : kmer) (keys : List ScanKeyData) (hne : keys ≠ []) :
    (spgist_kmer_leaf_consistent memcmp ⟨keys, leaf⟩).1 = true ↔
      ∀ key ∈ keys, strategyHolds key.sk_strategy
        (kmer_compare_internal memcmp leaf key.sk_argument) := by
  simpa [spgist_kmer_leaf_consistent] using leafKeyLoop_holds memcmp leaf keys hne

theorem leaf_consistent_conjunction_witness :
    (spgist_kmer_leaf_consistent memcmpDiff
      ⟨[⟨BTGreaterEqualStrategyNumber, ⟨4, [IUPAC_A, IUPAC_A, IUPAC_A, IUPAC_C]⟩⟩,
        ⟨BTLessStrategyNumber, ⟨4, [IUPAC_C, IUPAC_C, IUPAC_C, IUPAC_C]⟩⟩],
       ⟨4, [IUPAC_A, IUPAC_A, IUPAC_C, IUPAC_G]⟩⟩).1 = true ↔
      ∀ key ∈ [(⟨BTGreaterEqualStrategyNumber, ⟨4, [IUPAC_A, IUPAC_A, IUPAC_A, IUPAC_C]⟩⟩ :
                  ScanKeyData),
               ⟨BTLessStrategyNumber, ⟨4, [IUPAC_C, IUPAC_C, IUPAC_C, IUPAC_C]⟩⟩],
        strategyHolds key.sk_strategy
          (kmer_compare_internal memcmpDiff ⟨4, [IUPAC_A, IUPAC_A, IUPAC_C, IUPAC_G]⟩
            key.sk_argument) :=
  leaf_consistent_conjunction memcmpDiff ⟨4, [IUPAC_A, IUPAC_A, IUPAC_C, IUPAC_G]⟩
    [⟨BTGreaterEqualStrategyNumber, ⟨4, [IUPAC_A, IUPAC_A, IUPAC_A, IUPAC_C]⟩⟩,
     ⟨BTLessStrategyNumber, ⟨4, [IUPAC_C, IUPAC_C, IUPAC_C, IUPAC_C]⟩⟩]
    (by decide)

/-- C12: whatever the stored key, the predicates and the match result,
`spgist_kmer_leaf_consistent` sets `recheck` to false and returns the stored
key unchanged as `leafValue`. -/
theorem leaf_consistent_frame (memcmp : List CChar → List CChar → Nat → Int)
    (inp : spgLeafConsistentIn) :
    (spgist_kmer_leaf_consistent memcmp inp).2.recheck = false ∧
    (spgist_kmer_leaf_consistent memcmp inp).2.leafValue = inp.leafDatum :=
  ⟨rfl, rfl⟩

/-- No predicate of a strategy outside the five holds, whatever the result of
the comparison. -/
theorem strategyHolds_known (strategy : Nat) (c : Int) (h : strategyHolds strategy c) :
    knownStrategy strategy := by
  unfold strategyHolds at h
  unfold knownStrategy
  rcases h with ⟨e, -⟩ | ⟨e, -⟩ | ⟨e, -⟩ | ⟨e, -⟩ | ⟨e, -⟩ <;> simp [e]

/-- C13: when the predicate list contains a predicate whose strategy is not
one of EQ, LT, LE, GT, GE, at any place, `spgist_kmer_leaf_consistent`
reports no match; the function is total, it raises nothing. -/
theorem leaf_consistent_unknown (memcmp : List CChar → List CChar → Nat → Int)
    (leaf : kmer) (keys : List ScanKeyData)
    (h : ∃ key ∈ keys, ¬ knownStrategy key.sk_strategy) :
    (spgist_kmer_leaf_consistent memcmp ⟨keys, leaf⟩).1 = false := by
  obtain ⟨key, hk, hunk⟩ := h
  have hne : keys ≠ [] := fun e => by simp [e] at hk
  cases hres : (spgist_kmer_leaf_consistent memcmp ⟨keys, leaf⟩).1 with
  | false => rfl
  | true =>
    have hall := (leafKeyLoop_holds memcmp leaf keys hne).mp
      (by simpa [spgist_kmer_leaf_consistent] using hres)
    exact absurd (strategyHolds_known _ _ (hall key hk)) hunk

theorem leaf_consistent_unknown_witness :
    (spgist_kmer_leaf_consistent memcmpDiff
      ⟨[⟨BTEqualStrategyNumber, ⟨1, [IUPAC_A]⟩⟩, ⟨6, ⟨1, [IUPAC_A]⟩⟩],
       ⟨1, [IUPAC_A]⟩⟩).1 = false :=
  leaf_consistent_unknown memcmpDiff ⟨1, [IUPAC_A]⟩
    [⟨BTEqualStrategyNumber, ⟨1, [IUPAC_A]⟩⟩, ⟨6, ⟨1, [IUPAC_A]⟩⟩]
    ⟨⟨6, ⟨1, [IUPAC_A]⟩⟩, by decide, by decide⟩

/-! ## Theorems: the comparators -/

/-- Two integers of the same sign are negative, zero and positive together. -/
theorem sign_eq_cases (x y : Int) (h : Int.sign x = Int.sign y) :
    (x < 0 ↔ y < 0) ∧ (x = 0 ↔ y = 0) ∧ (0 < x ↔ 0 < y) := by
  rcases lt_trichotomy x 0 with hx | hx | hx <;>
    rcases lt_trichotomy y 0 with hy | hy | hy <;>
    simp only [Int.sign_eq_neg_one_of_neg, Int.sign_eq_one_of_pos, hx, hy, Int.sign_zero] at h <;>
    omega

/-- The byte-difference `memcmp` meets the contract of `memcmp`. -/
theorem memcmpDiff_contract : MemcmpContract memcmpDiff :=
  fun _ _ _ _ _ => rfl

/-- The sign-valued `memcmp` meets the contract of `memcmp`. -/
theorem memcmpSign_contract : MemcmpContract memcmpSign := by
  intro a b n _ _
  simp [memcmpSign, Int.sign_sign]

/-- A `char` is determined by its value as `unsigned char`. -/
theorem ubyte_inj (c d : CChar) (hc : isChar c) (hd : isChar d)
    (h : ubyte c = ubyte d) : c = d := by
  obtain ⟨hc1, hc2⟩ := hc
  obtain ⟨hd1, hd2⟩ := hd
  have h1 : @Eq Int (@HMod.hMod Int Int Int _ c 256) (@HMod.hMod Int Int Int _ d 256) := h
  have hc3 : @LE.le Int _ (-128) c := hc1
  have hc4 : @LE.le Int _ c 127 := hc2
  have hd3 : @LE.le Int _ (-128) d := hd1
  have hd4 : @LE.le Int _ d 127 := hd2
  have hcd : @Eq Int c d := by omega
  exact hcd

/-- Swapping the two objects negates the byte difference. -/
theorem memcmpDiff_swap (a b : List CChar) (n : Nat) :
    memcmpDiff b a n = - memcmpDiff a b n := by
  induction a generalizing b n with
  | nil => cases b <;> cases n <;> simp [memcmpDiff]
  | cons x xs ih =>
    cases b with
    | nil => cases n <;> simp [memcmpDiff]
    | cons y ys =>
      cases n with
      | zero => simp [memcmpDiff]
      | succ n =>
        by_cases h : ubyte x = ubyte y
        · simp [memcmpDiff, h, ih]
        · have h1 : ¬ ubyte y = ubyte x := fun e => h e.symm
          simp [memcmpDiff, h, h1]

/-- The byte difference is that of the first pair of bytes that differ. -/
theorem memcmpDiff_first_diff (a b : List CChar) (n i : Nat) (x y : CChar)
    (hi : i < n) (hx : a[i]? = some x) (hy : b[i]? = some y)
    (hne : ubyte x ≠ ubyte y)
    (hpre : ∀ j, j < i → (a[j]?).map ubyte = (b[j]?).map ubyte) :
    memcmpDiff a b n = ubyte x - ubyte y := by
  induction i generalizing a b n with
  | zero =>
    cases a with
    | nil => simp at hx
    | cons a0 as =>
      cases b with
      | nil => simp at hy
      | cons b0 bs =>
        cases n with
        | zero => omega
        | succ n =>
          simp at hx hy
          subst hx hy
          simp [memcmpDiff, hne]
  | succ i ih =>
    cases a with
    | nil => simp at hx
    | cons a0 as =>
      cases b with
      | nil => simp at hy
      | cons b0 bs =>
        cases n with
        | zero => omega
        | succ n =>
          have h0 : ubyte a0 = ubyte b0 := by simpa using hpre 0 (by omega)
          simp only [memcmpDiff, h0, if_true]
          apply ih as bs n (by omega) (by simpa using hx) (by simpa using hy)
          intro j hj
          simpa using hpre (j + 1) (by omega)

/-- The byte difference is zero exactly when the first `n` bytes agree. -/
theorem memcmpDiff_eq_zero_iff (a b : List CChar) (n : Nat)
    (ha : n ≤ a.length) (hb : n ≤ b.length) :
    memcmpDiff a b n = 0 ↔ (a.take n).map ubyte = (b.take n).map ubyte := by
  induction n generalizing a b with
  | zero => cases a <;> cases b <;> simp [memcmpDiff]
  | succ n ih =>
    cases a with
    | nil => simp at ha
    | cons x xs =>
      cases b with
      | nil => simp at hb
      | cons y ys =>
        simp only [List.length_cons, Nat.add_le_add_iff_right] at ha hb
        by_cases h : ubyte x = ubyte y
        · simp [memcmpDiff, h, ih xs ys ha hb]
        · have : ubyte x - ubyte y ≠ 0 := fun e => h (by omega)
          simp [memcmpDiff, h, this]

/-- Lexicographic comparison of two non-empty lists of integers: the heads
decide, or they are equal and the tails decide. -/
theorem lex_lt_cons (u v : Int) (l1 l2 : List Int) :
    List.Lex (fun x y : Int => x < y) (u :: l1) (v :: l2) ↔
      u < v ∨ (u = v ∧ List.Lex (fun x y : Int => x < y) l1 l2) := by
  constructor
  · intro h
    cases h with
    | cons h => exact Or.inr ⟨rfl, h⟩
    | rel h => exact Or.inl h
  · rintro (h | ⟨rfl, h⟩)
    · exact List.Lex.rel h
    · exact List.Lex.cons h

/-- The byte difference is negative exactly when the first `n` bytes of the
first object come before those of the second in the lexicographic order. -/
theorem memcmpDiff_neg_iff_lex (a b : List CChar) (n : Nat)
    (ha : n ≤ a.length) (hb : n ≤ b.length) :
    memcmpDiff a b n < 0 ↔
      List.Lex (fun x y : Int => x < y) ((a.take n).map ubyte) ((b.take n).map ubyte) := by
  induction n generalizing a b with
  | zero =>
    cases a <;> cases b <;> simp [memcmpDiff, List.Lex.not_nil_right]
  | succ n ih =>
    cases a with
    | nil => simp at ha
    | cons x xs =>
      cases b with
      | nil => simp at hb
      | cons y ys =>
        simp only [List.length_cons, Nat.add_le_add_iff_right] at ha hb
        simp only [List.take_succ_cons, List.map_cons, lex_lt_cons]
        by_cases h : ubyte x = ubyte y
        · simp only [memcmpDiff, h, if_true, lt_irrefl, false_or, true_and]
          exact ih xs ys ha hb
        · simp only [memcmpDiff, h, if_false, false_and, or_false]
          omega

/-- The order given by the byte difference is transitive. -/
theorem memcmpDiff_trans (a b c : List CChar) (n : Nat)
    (ha : n ≤ a.length) (hb : n ≤ b.length) (hc : n ≤ c.length)
    (hab : memcmpDiff a b n ≤ 0) (hbc : memcmpDiff b c n ≤ 0) :
    memcmpDiff a c n ≤ 0 := by
  induction n generalizing a b c with
  | zero => cases a <;> cases c <;> simp [memcmpDiff]
  | succ n ih =>
    cases a with
    | nil => simp at ha
    | cons x xs =>
      cases b with
      | nil => simp at hb
      | cons y ys =>
        cases c with
        | nil => simp at hc
        | cons z zs =>
          simp only [List.length_cons, Nat.add_le_add_iff_right] at ha hb hc
          simp only [memcmpDiff] at hab hbc ⊢
          by_cases hxy : ubyte x = ubyte y <;> by_cases hyz : ubyte y = ubyte z <;>
            by_cases hxz : ubyte x = ubyte z <;>
            simp only [hxy, hyz, hxz, if_true, if_false] at hab hbc ⊢ <;>
            first
            | exact ih xs ys zs ha hb hc hab hbc
            | omega

/-- C15: the sign of `dna_compare_internal a b` is the sign of the first pair
of bytes that differ (read as unsigned) within the first `min (len a) (len b)`
bytes; when those prefixes are equal the result is negative if `a` is shorter,
positive if `a` is longer and zero if the lengths are equal. -/
theorem dna_compare_sign (memcmp : List CChar → List CChar → Nat → Int)
    (hm : MemcmpContract memcmp) (a b : dna) :
    (∀ (i : Nat) (x y : CChar), a.data[i]? = some x → b.data[i]? = some y →
        ubyte x ≠ ubyte y →
        (∀ j, j < i → (a.data[j]?).map ubyte = (b.data[j]?).map ubyte) →
        Int.sign (dna_compare_internal memcmp a b) = Int.sign (ubyte x - ubyte y)) ∧
    ((a.data.take (min a.data.length b.data.length)).map ubyte =
        (b.data.take (min a.data.length b.data.length)).map ubyte →
      (a.data.length < b.data.length → dna_compare_internal memcmp a b < 0) ∧
      (a.data.length > b.data.length → dna_compare_internal memcmp a b > 0) ∧
      (a.data.length = b.data.length → dna_compare_internal memcmp a b = 0)) := by
  have hs := hm a.data b.data (min a.data.length b.data.length)
    (Nat.min_le_left _ _) (Nat.min_le_right _ _)
  constructor
  · intro i x y hx hy hne hpre
    obtain ⟨hia, -⟩ := List.getElem?_eq_some.mp hx
    obtain ⟨hib, -⟩ := List.getElem?_eq_some.mp hy
    have hd := memcmpDiff_first_diff a.data b.data (min a.data.length b.data.length) i x y
      (by omega) hx hy hne hpre
    rw [hd] at hs
    have hne0 : memcmp a.data b.data (min a.data.length b.data.length) ≠ 0 := by
      intro e
      have := (sign_eq_cases _ _ hs).2.1.mp e
      exact hne (by omega)
    simp only [dna_compare_internal, ne_eq, hne0, not_false_eq_true, if_true]
    exact hs
  · intro hpre
    have hd := (memcmpDiff_eq_zero_iff a.data b.data (min a.data.length b.data.length)
      (Nat.min_le_left _ _) (Nat.min_le_right _ _)).mpr hpre
    rw [hd] at hs
    have h0 : memcmp a.data b.data (min a.data.length b.data.length) = 0 :=
      (sign_eq_cases _ _ hs).2.1.mpr rfl
    simp only [dna_compare_internal, h0, ne_eq, not_true_eq_false, if_false]
    refine ⟨?_, ?_, ?_⟩
    · intro h; simp [h]
    · intro h
      have h1 : ¬ a.data.length < b.data.length := by omega
      simp [h1, h]
    · intro h; simp [h]

theorem dna_compare_sign_witness :
    (∀ (i : Nat) (x y : CChar),
        ([IUPAC_A, IUPAC_T] : List CChar)[i]? = some x →
        ([IUPAC_A, IUPAC_C, IUPAC_G] : List CChar)[i]? = some y →
        ubyte x ≠ ubyte y →
        (∀ j, j < i → (([IUPAC_A, IUPAC_T] : List CChar)[j]?).map ubyte =
          (([IUPAC_A, IUPAC_C, IUPAC_G] : List CChar)[j]?).map ubyte) →
        Int.sign (dna_compare_internal memcmpDiff ⟨[IUPAC_A, IUPAC_T]⟩
          ⟨[IUPAC_A, IUPAC_C, IUPAC_G]⟩) = Int.sign (ubyte x - ubyte y)) ∧
    ((([IUPAC_A, IUPAC_T] : List CChar).take (min 2 3)).map ubyte =
        (([IUPAC_A, IUPAC_C, IUPAC_G] : List CChar).take (min 2 3)).map ubyte →
      (2 < 3 → dna_compare_internal memcmpDiff ⟨[IUPAC_A, IUPAC_T]⟩
          ⟨[IUPAC_A, IUPAC_C, IUPAC_G]⟩ < 0) ∧
      (2 > 3 → dna_compare_internal memcmpDiff ⟨[IUPAC_A, IUPAC_T]⟩
          ⟨[IUPAC_A, IUPAC_C, IUPAC_G]⟩ > 0) ∧
      (2 = 3 → dna_compare_internal memcmpDiff ⟨[IUPAC_A, IUPAC_T]⟩
          ⟨[IUPAC_A, IUPAC_C, IUPAC_G]⟩ = 0)) :=
  dna_compare_sign memcmpDiff memcmpDiff_contract ⟨[IUPAC_A, IUPAC_T]⟩
    ⟨[IUPAC_A, IUPAC_C, IUPAC_G]⟩

/-- C16: `kmer_compare_internal a b` is negative when `a.k < b.k` and positive
when `a.k > b.k`, whatever the contents; when `a.k = b.k` it is negative, zero
or positive as the `k` bytes of `a` come before, equal or come after those of
`b` in the lexicographic order of the bytes (read as unsigned). -/
theorem kmer_compare_length_first (memcmp : List CChar → List CChar → Nat → Int)
    (hm : MemcmpContract memcmp) (a b : kmer) (ha : a.wf) (hb : b.wf) :
    (a.k < b.k → kmer_compare_internal memcmp a b < 0) ∧
    (a.k > b.k → kmer_compare_internal memcmp a b > 0) ∧
    (a.k = b.k →
      (kmer_compare_internal memcmp a b < 0 ↔
        List.Lex (fun x y : Int => x < y) (a.data.map ubyte) (b.data.map ubyte)) ∧
      (kmer_compare_internal memcmp a b = 0 ↔ a.data.map ubyte = b.data.map ubyte) ∧
      (kmer_compare_internal memcmp a b > 0 ↔
        List.Lex (fun x y : Int => x < y) (b.data.map ubyte) (a.data.map ubyte))) := by
  unfold kmer.wf at ha hb
  refine ⟨?_, ?_, ?_⟩
  · intro h; simp [kmer_compare_internal, h]
  · intro h
    have h1 : ¬ a.k < b.k := by omega
    simp [kmer_compare_internal, h1, h]
  · intro hk
    have h1 : ¬ a.k < b.k := by omega
    have h2 : ¬ a.k > b.k := by omega
    have hla : a.k ≤ a.data.length := by omega
    have hlb : a.k ≤ b.data.length := by omega
    have hs := sign_eq_cases _ _ (hm a.data b.data a.k hla hlb)
    have hta : a.data.take a.k = a.data := List.take_of_length_le (by omega)
    have htb : b.data.take a.k = b.data := List.take_of_length_le (by omega)
    have hlt := memcmpDiff_neg_iff_lex a.data b.data a.k hla hlb
    have heq := memcmpDiff_eq_zero_iff a.data b.data a.k hla hlb
    have hgt := memcmpDiff_neg_iff_lex b.data a.data a.k hlb hla
    rw [memcmpDiff_swap a.data b.data a.k] at hgt
    rw [hta, htb] at hlt heq hgt
    simp only [kmer_compare_internal, h1, h2, if_false]
    refine ⟨hs.1.trans hlt, hs.2.1.trans heq, ?_⟩
    rw [← hgt]
    constructor
    · intro h
      have := hs.2.2.mp h
      omega
    · intro h
      exact hs.2.2.mpr (by omega)

theorem kmer_compare_length_first_witness :
    (2 < 2 → kmer_compare_internal memcmpDiff ⟨2, [IUPAC_A, IUPAC_C]⟩ ⟨2, [IUPAC_A, IUPAC_G]⟩ < 0) ∧
    (2 > 2 → kmer_compare_internal memcmpDiff ⟨2, [IUPAC_A, IUPAC_C]⟩ ⟨2, [IUPAC_A, IUPAC_G]⟩ > 0) ∧
    (2 = 2 →
      (kmer_compare_internal memcmpDiff ⟨2, [IUPAC_A, IUPAC_C]⟩ ⟨2, [IUPAC_A, IUPAC_G]⟩ < 0 ↔
        List.Lex (fun x y : Int => x < y) (([IUPAC_A, IUPAC_C] : List CChar).map ubyte)
          (([IUPAC_A, IUPAC_G] : List CChar).map ubyte)) ∧
      (kmer_compare_internal memcmpDiff ⟨2, [IUPAC_A, IUPAC_C]⟩ ⟨2, [IUPAC_A, IUPAC_G]⟩ = 0 ↔
        ([IUPAC_A, IUPAC_C] : List CChar).map ubyte = ([IUPAC_A, IUPAC_G] : List CChar).map ubyte) ∧
      (kmer_compare_internal memcmpDiff ⟨2, [IUPAC_A, IUPAC_C]⟩ ⟨2, [IUPAC_A, IUPAC_G]⟩ > 0 ↔
        List.Lex (fun x y : Int => x < y) (([IUPAC_A, IUPAC_G] : List CChar).map ubyte)
          (([IUPAC_A, IUPAC_C] : List CChar).map ubyte))) :=
  kmer_compare_length_first memcmpDiff memcmpDiff_contract ⟨2, [IUPAC_A, IUPAC_C]⟩
    ⟨2, [IUPAC_A, IUPAC_G]⟩ (by decide) (by decide)

/-- C17 (counterexample): with the byte-difference `memcmp`, which meets the
contract of `memcmp`, both comparators return -2 for the keys A and C, a
value outside -1, 0, 1. -/
theorem compare_result_outside_unit :
    MemcmpContract memcmpDiff ∧
    kmer_compare_internal memcmpDiff ⟨1, [IUPAC_A]⟩ ⟨1, [IUPAC_C]⟩ = -2 ∧
    dna_compare_internal memcmpDiff ⟨[IUPAC_A]⟩ ⟨[IUPAC_C]⟩ = -2 :=
  ⟨memcmpDiff_contract, by decide, by decide⟩

/-- The sign-valued `memcmp` returns only -1, 0 or 1. -/
theorem memcmpSign_range (p q : List CChar) (n : Nat) :
    memcmpSign p q n = -1 ∨ memcmpSign p q n = 0 ∨ memcmpSign p q n = 1 := by
  unfold memcmpSign
  rcases lt_trichotomy (memcmpDiff p q n) 0 with h | h | h
  · exact Or.inl (Int.sign_eq_neg_one_of_neg h)
  · exact Or.inr (Or.inl (by rw [h]; rfl))
  · exact Or.inr (Or.inr (Int.sign_eq_one_of_pos h))

/-- C17 (amended): each comparator returns -1, 0 or 1, or else the value that
`memcmp` returned for the compared contents; so both return a value among
-1, 0, 1 whenever the `memcmp` in use returns only such values. -/
theorem compare_result_range (memcmp : List CChar → List CChar → Nat → Int)
    (a b : kmer) (x y : dna) :
    (kmer_compare_internal memcmp a b = -1 ∨ kmer_compare_internal memcmp a b = 1 ∨
      kmer_compare_internal memcmp a b = memcmp a.data b.data a.k) ∧
    (dna_compare_internal memcmp x y = -1 ∨ dna_compare_internal memcmp x y = 0 ∨
      dna_compare_internal memcmp x y = 1 ∨
      dna_compare_internal memcmp x y =
        memcmp x.data y.data (min x.data.length y.data.length)) ∧
    ((∀ p q n, memcmp p q n = -1 ∨ memcmp p q n = 0 ∨ memcmp p q n = 1) →
      (kmer_compare_internal memcmp a b = -1 ∨ kmer_compare_internal memcmp a b = 0 ∨
        kmer_compare_internal memcmp a b = 1) ∧
      (dna_compare_internal memcmp x y = -1 ∨ dna_compare_internal memcmp x y = 0 ∨
        dna_compare_internal memcmp x y = 1)) := by
  have hk : kmer_compare_internal memcmp a b = -1 ∨ kmer_compare_internal memcmp a b = 1 ∨
      kmer_compare_internal memcmp a b = memcmp a.data b.data a.k := by
    unfold kmer_compare_internal
    by_cases h1 : a.k < b.k
    · simp [h1]
    · by_cases h2 : a.k > b.k
      · simp [h1, h2]
      · simp [h1, h2]
  have hd : dna_compare_internal memcmp x y = -1 ∨ dna_compare_internal memcmp x y = 0 ∨
      dna_compare_internal memcmp x y = 1 ∨
      dna_compare_internal memcmp x y =
        memcmp x.data y.data (min x.data.length y.data.length) := by
    unfold dna_compare_internal
    by_cases h0 : memcmp x.data y.data (min x.data.length y.data.length) = 0
    · by_cases h1 : x.data.length < y.data.length
      · simp [h0, h1]
      · by_cases h2 : x.data.length > y.data.length
        · simp [h0, h1, h2]
        · simp [h0, h1, h2]
    · simp [h0]
  refine ⟨hk, hd, ?_⟩
  intro hr
  constructor
  · rcases hk with h | h | h
    · exact Or.inl h
    · exact Or.inr (Or.inr h)
    · rw [h]; exact hr _ _ _
  · rcases hd with h | h | h | h
    · exact Or.inl h
    · exact Or.inr (Or.inl h)
    · exact Or.inr (Or.inr h)
    · rw [h]; exact hr _ _ _

theorem compare_result_range_witness :
    (kmer_compare_internal memcmpSign ⟨1, [IUPAC_A]⟩ ⟨1, [IUPAC_C]⟩ = -1 ∨
      kmer_compare_internal memcmpSign ⟨1, [IUPAC_A]⟩ ⟨1, [IUPAC_C]⟩ = 0 ∨
      kmer_compare_internal memcmpSign ⟨1, [IUPAC_A]⟩ ⟨1, [IUPAC_C]⟩ = 1) ∧
    (dna_compare_internal memcmpSign ⟨[IUPAC_A]⟩ ⟨[IUPAC_C]⟩ = -1 ∨
      dna_compare_internal memcmpSign ⟨[IUPAC_A]⟩ ⟨[IUPAC_C]⟩ = 0 ∨
      dna_compare_internal memcmpSign ⟨[IUPAC_A]⟩ ⟨[IUPAC_C]⟩ = 1) :=
  (compare_result_range memcmpSign ⟨1, [IUPAC_A]⟩ ⟨1, [IUPAC_C]⟩
    ⟨[IUPAC_A]⟩ ⟨[IUPAC_C]⟩).2.2 memcmpSign_range

/-- C18: for two keys of the same length `k`, taken once as k-mers and once as
DNA sequences with the same contents, `kmer_compare_internal` and
`dna_compare_internal` return results of the same sign. -/
theorem compare_same_length_same_sign (memcmp : List CChar → List CChar → Nat → Int)
    (a b : kmer) (ha : a.wf) (hb : b.wf) (hk : a.k = b.k) :
    Int.sign (kmer_compare_internal memcmp a b) =
      Int.sign (dna_compare_internal memcmp ⟨a.data⟩ ⟨b.data⟩) := by
  unfold kmer.wf at ha hb
  have h1 : ¬ a.k < b.k := by omega
  have h2 : ¬ a.k > b.k := by omega
  have h3 : ¬ a.data.length < b.data.length := by omega
  have h4 : ¬ a.data.length > b.data.length := by omega
  have hmin : min a.data.length b.data.length = a.k := by omega
  simp only [kmer_compare_internal, dna_compare_internal, h1, h2, h3, h4, hmin, if_false]
  by_cases h0 : memcmp a.data b.data a.k = 0
  · simp [h0]
  · simp [h0]

theorem compare_same_length_same_sign_witness :
    Int.sign (kmer_compare_internal memcmpDiff ⟨2, [IUPAC_A, IUPAC_T]⟩ ⟨2, [IUPAC_A, IUPAC_C]⟩) =
      Int.sign (dna_compare_internal memcmpDiff ⟨[IUPAC_A, IUPAC_T]⟩ ⟨[IUPAC_A, IUPAC_C]⟩) :=
  compare_same_length_same_sign memcmpDiff ⟨2, [IUPAC_A, IUPAC_T]⟩ ⟨2, [IUPAC_A, IUPAC_C]⟩
    (by decide) (by decide) (by decide)

/-- C19: the keys C and AA, of different lengths, are ordered in opposite
directions by the two comparators: `kmer_compare_internal` puts C before AA
(shorter first), `dna_compare_internal` puts C after AA (contents first). -/
theorem comparators_disagree (memcmp : List CChar → List CChar → Nat → Int)
    (hm : MemcmpContract memcmp) :
    kmer_compare_internal memcmp ⟨1, [IUPAC_C]⟩ ⟨2, [IUPAC_A, IUPAC_A]⟩ < 0 ∧
    dna_compare_internal memcmp ⟨[IUPAC_C]⟩ ⟨[IUPAC_A, IUPAC_A]⟩ > 0 := by
  constructor
  · simp [kmer_compare_internal]
  · have hs := hm [IUPAC_C] [IUPAC_A, IUPAC_A] 1 (by simp) (by simp)
    have hd : memcmpDiff [IUPAC_C] [IUPAC_A, IUPAC_A] 1 = 2 := by decide
    rw [hd] at hs
    have hpos : 0 < memcmp [IUPAC_C] [IUPAC_A, IUPAC_A] 1 :=
      (sign_eq_cases _ _ hs).2.2.mpr (by decide)
    have hne : memcmp [IUPAC_C] [IUPAC_A, IUPAC_A] 1 ≠ 0 := by omega
    simpa [dna_compare_internal, hne] using hpos

theorem comparators_disagree_witness :
    kmer_compare_internal memcmpDiff ⟨1, [IUPAC_C]⟩ ⟨2, [IUPAC_A, IUPAC_A]⟩ < 0 ∧
    dna_compare_internal memcmpDiff ⟨[IUPAC_C]⟩ ⟨[IUPAC_A, IUPAC_A]⟩ > 0 :=
  comparators_disagree memcmpDiff memcmpDiff_contract

/-- Two lists of `char` values with the same unsigned bytes are equal. -/
theorem map_ubyte_inj (l1 l2 : List CChar) (h1 : ∀ c ∈ l1, isChar c)
    (h2 : ∀ c ∈ l2, isChar c) (h : l1.map ubyte = l2.map ubyte) : l1 = l2 := by
  induction l1 generalizing l2 with
  | nil =>
    cases l2 with
    | nil => rfl
    | cons y ys => simp at h
  | cons x xs ih =>
    cases l2 with
    | nil => simp at h
    | cons y ys =>
      simp only [List.map_cons, List.cons.injEq] at h
      have hxy := ubyte_inj x y (h1 x (by simp)) (h2 y (by simp)) h.1
      have hrest := ih ys (fun c hc => h1 c (by simp [hc])) (fun c hc => h2 c (by simp [hc])) h.2
      rw [hxy, hrest]

/-- C20: `kmer_compare_internal` is a total order on k-mers of any lengths: the
sign of `compare a b` is the opposite of the sign of `compare b a`;
`compare a b <= 0` and `compare b c <= 0` imply `compare a c <= 0`; and
`compare a b = 0` if and only if `a` and `b` have the same `k` and the same
`k` symbols. -/
theorem kmer_compare_total_order (memcmp : List CChar → List CChar → Nat → Int)
    (hm : MemcmpContract memcmp) (a b c : kmer)
    (ha : a.wf) (hb : b.wf) (hc : c.wf) (hca : a.chars) (hcb : b.chars) :
    Int.sign (kmer_compare_internal memcmp a b) =
      - Int.sign (kmer_compare_internal memcmp b a) ∧
    (kmer_compare_internal memcmp a b ≤ 0 → kmer_compare_internal memcmp b c ≤ 0 →
      kmer_compare_internal memcmp a c ≤ 0) ∧
    (kmer_compare_internal memcmp a b = 0 ↔ a.k = b.k ∧ a.data = b.data) := by
  unfold kmer.wf at ha hb hc
  refine ⟨?_, ?_, ?_⟩
  · rcases Nat.lt_trichotomy a.k b.k with h | h | h
    · have h1 : ¬ b.k < a.k := by omega
      have h2 : b.k > a.k := h
      simp [kmer_compare_internal, h, h1, h2]
    · have h1 : ¬ a.k < b.k := by omega
      have h2 : ¬ b.k < a.k := by omega
      have h3 : ¬ a.k > b.k := by omega
      have h4 : ¬ b.k > a.k := by omega
      simp only [kmer_compare_internal, h1, h2, h3, h4, if_false]
      rw [hm a.data b.data a.k (by omega) (by omega),
        hm b.data a.data b.k (by omega) (by omega), ← h,
        memcmpDiff_swap a.data b.data a.k, Int.sign_neg, neg_neg]
    · have h1 : ¬ a.k < b.k := by omega
      have h2 : a.k > b.k := h
      simp [kmer_compare_internal, h, h1, h2]
  · intro hab hbc
    have hkab : a.k ≤ b.k := by
      by_contra hn
      have h1 : ¬ a.k < b.k := by omega
      have h2 : a.k > b.k := by omega
      simp [kmer_compare_internal, h1, h2] at hab
    have hkbc : b.k ≤ c.k := by
      by_contra hn
      have h1 : ¬ b.k < c.k := by omega
      have h2 : b.k > c.k := by omega
      simp [kmer_compare_internal, h1, h2] at hbc
    by_cases hlt : a.k < c.k
    · simp [kmer_compare_internal, hlt]
    · have e1 : a.k = b.k := by omega
      have e2 : b.k = c.k := by omega
      have n1 : ¬ a.k < b.k := by omega
      have n2 : ¬ a.k > b.k := by omega
      have n3 : ¬ b.k < c.k := by omega
      have n4 : ¬ b.k > c.k := by omega
      have n5 : ¬ a.k > c.k := by omega
      simp only [kmer_compare_internal, n1, n2, n3, n4, n5, hlt, if_false] at hab hbc ⊢
      have sab := sign_eq_cases _ _ (hm a.data b.data a.k (by omega) (by omega))
      have sbc := sign_eq_cases _ _ (hm b.data c.data b.k (by omega) (by omega))
      have sac := sign_eq_cases _ _ (hm a.data c.data a.k (by omega) (by omega))
      have dab : memcmpDiff a.data b.data a.k ≤ 0 := by
        by_contra hn
        have := sab.2.2.mpr (by omega)
        omega
      have dbc : memcmpDiff b.data c.data a.k ≤ 0 := by
        rw [e1]
        by_contra hn
        have := sbc.2.2.mpr (by omega)
        omega
      have dac := memcmpDiff_trans a.data b.data c.data a.k (by omega) (by omega) (by omega)
        dab dbc
      by_contra hn
      have := sac.2.2.mp (by omega)
      omega
  · constructor
    · intro h0
      have hk : a.k = b.k := by
        by_contra hn
        rcases Nat.lt_or_gt_of_ne hn with h | h
        · simp [kmer_compare_internal, h] at h0
        · have h1 : ¬ a.k < b.k := by omega
          simp [kmer_compare_internal, h1, h] at h0
      refine ⟨hk, ?_⟩
      have n1 : ¬ a.k < b.k := by omega
      have n2 : ¬ a.k > b.k := by omega
      simp only [kmer_compare_internal, n1, n2, if_false] at h0
      have sab := sign_eq_cases _ _ (hm a.data b.data a.k (by omega) (by omega))
      have hd := sab.2.1.mp h0
      have hmap := (memcmpDiff_eq_zero_iff a.data b.data a.k (by omega) (by omega)).mp hd
      rw [List.take_of_length_le (by omega), List.take_of_length_le (by omega)] at hmap
      exact map_ubyte_inj a.data b.data hca hcb hmap
    · rintro ⟨hk, hdata⟩
      have n1 : ¬ a.k < b.k := by omega
      have n2 : ¬ a.k > b.k := by omega
      simp only [kmer_compare_internal, n1, n2, if_false]
      have sab := sign_eq_cases _ _ (hm a.data b.data a.k (by omega) (by omega))
      apply sab.2.1.mpr
      apply (memcmpDiff_eq_zero_iff a.data b.data a.k (by omega) (by omega)).mpr
      rw [hdata]

theorem kmer_compare_total_order_witness :
    Int.sign (kmer_compare_internal memcmpDiff ⟨2, [IUPAC_A, IUPAC_C]⟩ ⟨2, [IUPAC_A, IUPAC_G]⟩) =
      - Int.sign (kmer_compare_internal memcmpDiff ⟨2, [IUPAC_A, IUPAC_G]⟩
          ⟨2, [IUPAC_A, IUPAC_C]⟩) ∧
    (kmer_compare_internal memcmpDiff ⟨2, [IUPAC_A, IUPAC_C]⟩ ⟨2, [IUPAC_A, IUPAC_G]⟩ ≤ 0 →
      kmer_compare_internal memcmpDiff ⟨2, [IUPAC_A, IUPAC_G]⟩
        ⟨3, [IUPAC_A, IUPAC_A, IUPAC_A]⟩ ≤ 0 →
      kmer_compare_internal memcmpDiff ⟨2, [IUPAC_A, IUPAC_C]⟩
        ⟨3, [IUPAC_A, IUPAC_A, IUPAC_A]⟩ ≤ 0) ∧
    (kmer_compare_internal memcmpDiff ⟨2, [IUPAC_A, IUPAC_C]⟩ ⟨2, [IUPAC_A, IUPAC_G]⟩ = 0 ↔
      (2 : Nat) = 2 ∧ ([IUPAC_A, IUPAC_C] : List CChar) = [IUPAC_A, IUPAC_G]) :=
  kmer_compare_total_order memcmpDiff memcmpDiff_contract ⟨2, [IUPAC_A, IUPAC_C]⟩
    ⟨2, [IUPAC_A, IUPAC_G]⟩ ⟨3, [IUPAC_A, IUPAC_A, IUPAC_A]⟩
    (by decide) (by decide) (by decide) (by decide) (by decide)

/-! ## Theorems: the comparator and the trie -/

/-- Two well-formed keys compare equal exactly when they have the same `k` and
the same bytes. -/
theorem kmer_compare_zero_iff (memcmp : List CChar → List CChar → Nat → Int)
    (hm : MemcmpContract memcmp) (a b : kmer) (ha : a.wf) (hb : b.wf) :
    kmer_compare_internal memcmp a b = 0 ↔
      a.k = b.k ∧ a.data.map ubyte = b.data.map ubyte := by
  unfold kmer.wf at ha hb
  by_cases h1 : a.k < b.k
  · have : a.k ≠ b.k := by omega
    simp [kmer_compare_internal, h1, this]
  by_cases h2 : a.k > b.k
  · have : a.k ≠ b.k := by omega
    simp [kmer_compare_internal, h1, h2, this]
  have hk : a.k = b.k := by omega
  have sab := sign_eq_cases _ _ (hm a.data b.data a.k (by omega) (by omega))
  have hz := memcmpDiff_eq_zero_iff a.data b.data a.k (by omega) (by omega)
  rw [List.take_of_length_le (by omega), List.take_of_length_le (by omega)] at hz
  simp only [kmer_compare_internal, h1, h2, if_false]
  constructor
  · intro h
    exact ⟨hk, hz.mp (sab.2.1.mp h)⟩
  · rintro ⟨-, h⟩
    exact sab.2.1.mpr (hz.mpr h)

/-- C21 (counterexample): the keys C and AA agree on their first 0 symbols and
differ at position 0, where C is the greater symbol, yet
`kmer_compare_internal` puts C before AA: the lengths decide. -/
theorem first_diff_not_decisive_across_lengths :
    ([IUPAC_C] : List CChar).take 0 = ([IUPAC_A, IUPAC_A] : List CChar).take 0 ∧
    ([IUPAC_C] : List CChar)[0]? = some IUPAC_C ∧
    ([IUPAC_A, IUPAC_A] : List CChar)[0]? = some IUPAC_A ∧
    Int.sign (ubyte IUPAC_C - ubyte IUPAC_A) = 1 ∧
    Int.sign (kmer_compare_internal memcmpDiff ⟨1, [IUPAC_C]⟩ ⟨2, [IUPAC_A, IUPAC_A]⟩) = -1 := by
  decide

/-- C21 (amended): for two k-mer keys of the same length that agree on their
first `L` symbols and differ at position `L`, the sign of
`kmer_compare_internal a b` is the sign of the comparison of the symbol of `a`
with the symbol of `b` at position `L` (bytes read as unsigned). -/
theorem kmer_compare_first_diff (memcmp : List CChar → List CChar → Nat → Int)
    (hm : MemcmpContract memcmp) (a b : kmer) (ha : a.wf) (hb : b.wf)
    (hca : a.chars) (hcb : b.chars) (hk : a.k = b.k)
    (L : Nat) (x y : CChar) (hx : a.data[L]? = some x) (hy : b.data[L]? = some y)
    (hagree : a.data.take L = b.data.take L) (hne : x ≠ y) :
    Int.sign (kmer_compare_internal memcmp a b) = Int.sign (ubyte x - ubyte y) := by
  unfold kmer.wf at ha hb
  obtain ⟨hla, -⟩ := List.getElem?_eq_some.mp hx
  have hune : ubyte x ≠ ubyte y := fun e =>
    hne (ubyte_inj x y (hca x (List.getElem?_mem hx)) (hcb y (List.getElem?_mem hy)) e)
  have hpre : ∀ j, j < L → (a.data[j]?).map ubyte = (b.data[j]?).map ubyte := by
    intro j hj
    have e1 : (a.data.take L)[j]? = a.data[j]? := List.getElem?_take_of_lt hj
    have e2 : (b.data.take L)[j]? = b.data[j]? := List.getElem?_take_of_lt hj
    rw [← e1, ← e2, hagree]
  have hd := memcmpDiff_first_diff a.data b.data a.k L x y (by omega) hx hy hune hpre
  have h1 : ¬ a.k < b.k := by omega
  have h2 : ¬ a.k > b.k := by omega
  simp only [kmer_compare_internal, h1, h2, if_false]
  rw [hm a.data b.data a.k (by omega) (by omega), hd]

theorem kmer_compare_first_diff_witness :
    Int.sign (kmer_compare_internal memcmpDiff ⟨4, [IUPAC_A, IUPAC_A, IUPAC_C, IUPAC_G]⟩
      ⟨4, [IUPAC_A, IUPAC_A, IUPAC_A, IUPAC_C]⟩) = Int.sign (ubyte IUPAC_C - ubyte IUPAC_A) :=
  kmer_compare_first_diff memcmpDiff memcmpDiff_contract
    ⟨4, [IUPAC_A, IUPAC_A, IUPAC_C, IUPAC_G]⟩ ⟨4, [IUPAC_A, IUPAC_A, IUPAC_A, IUPAC_C]⟩
    (by decide) (by decide) (by decide) (by decide) (by decide)
    2 IUPAC_C IUPAC_A (by decide) (by decide) (by decide) (by decide)

/-- When the search loop of choose ends with `spgMatchNode` at index `m`, the
label at that index is the symbol searched for. -/
theorem chooseLoop_match_label (c : CChar) (labels : List CChar) (n m : Nat)
    (h : chooseLoop c labels n = spgChooseOut.spgMatchNode (some m)) :
    n ≤ m ∧ labels[m - n]? = some c := by
  induction labels generalizing n with
  | nil => simp [chooseLoop] at h
  | cons l rest ih =>
    by_cases hl : l = c
    · simp only [chooseLoop, hl, if_true, spgChooseOut.spgMatchNode.injEq,
        Option.some.injEq] at h
      subst h
      simp [hl]
    · simp only [chooseLoop, hl, if_false] at h
      obtain ⟨h1, h2⟩ := ih (n + 1) h
      refine ⟨by omega, ?_⟩
      have : m - n = (m - (n + 1)) + 1 := by omega
      rw [this]
      simpa using h2

/-- C22: no false negative along the insertion path. When
`spgist_kmer_choose` reports `spgMatchNode` with child `i` for a key at a level
below its length, `spgist_kmer_inner_consistent` given the single predicate
EQ(key) at the same level and labels returns child `i`, and
`spgist_kmer_leaf_consistent` applied to the stored key with the predicate
EQ(key) reports a match. -/
theorem eq_query_no_false_negative (memcmp : List CChar → List CChar → Nat → Int)
    (hm : MemcmpContract memcmp) (inp : spgChooseIn) (i : Nat)
    (hwf : inp.datum.wf) (hlt : chooseLevel inp < inp.datum.k)
    (hch : spgist_kmer_choose inp = some (spgChooseOut.spgMatchNode (some i))) :
    (∃ out, spgist_kmer_inner_consistent
        ⟨[⟨BTEqualStrategyNumber, inp.datum⟩], chooseLevel inp, inp.nodeLabels⟩ = some out ∧
      i ∈ out.nodeNumbers) ∧
    (spgist_kmer_leaf_consistent memcmp
      ⟨[⟨BTEqualStrategyNumber, inp.datum⟩], inp.datum⟩).1 = true := by
  obtain ⟨c, hread⟩ := kmer_read_some inp.datum (chooseLevel inp) hwf hlt
  have hnot : ¬ chooseLevel inp ≥ inp.datum.k := by omega
  simp only [spgist_kmer_choose, hnot, if_false, hread, Option.some.injEq] at hch
  obtain ⟨-, hlab⟩ := chooseLoop_match_label c inp.nodeLabels 0 i hch
  have hloop := innerMatchLoop_spec inp.nodeLabels.length c inp.nodeLabels 0
    { nNodes := 0, nodeNumbers := [], levelAdds := [] } (by simp)
  simp only [Nat.zero_add, List.nil_append] at hloop
  constructor
  · refine ⟨⟨(matchFrom c inp.nodeLabels 0).length, matchFrom c inp.nodeLabels 0,
      List.replicate (matchFrom c inp.nodeLabels 0).length 1⟩, ?_, ?_⟩
    · simp only [spgist_kmer_inner_consistent, innerKeyLoop, if_true, hlt, hread, hloop]
    · simpa [mem_matchFrom] using hlab
  · have hz := (kmer_compare_zero_iff memcmp hm inp.datum inp.datum hwf hwf).mpr ⟨rfl, rfl⟩
    have hh := (leafKeyLoop_holds memcmp inp.datum [⟨BTEqualStrategyNumber, inp.datum⟩]
      (by simp)).mpr (by
        intro key hk
        simp only [List.mem_singleton] at hk
        subst hk
        exact Or.inl ⟨rfl, hz⟩)
    simpa [spgist_kmer_leaf_consistent] using hh

theorem eq_query_no_false_negative_witness :
    (∃ out, spgist_kmer_inner_consistent
        ⟨[⟨BTEqualStrategyNumber, ⟨2, [IUPAC_A, IUPAC_C]⟩⟩], 1,
         [IUPAC_A, IUPAC_C, IUPAC_C]⟩ = some out ∧
      1 ∈ out.nodeNumbers) ∧
    (spgist_kmer_leaf_consistent memcmpDiff
      ⟨[⟨BTEqualStrategyNumber, ⟨2, [IUPAC_A, IUPAC_C]⟩⟩], ⟨2, [IUPAC_A, IUPAC_C]⟩⟩).1 = true :=
  eq_query_no_false_negative memcmpDiff memcmpDiff_contract
    ⟨⟨2, [IUPAC_A, IUPAC_C]⟩, some ⟨1, IUPAC_A, false⟩, [IUPAC_A, IUPAC_C, IUPAC_C]⟩ 1
    (by decide) (by decide) (by decide)

/-- C23: for a stored k-mer `s` and a query k-mer `q` that differs from `s` in
length or in at least one symbol, `spgist_kmer_leaf_consistent` applied to `s`
with the predicate EQ(q) reports no match. -/
theorem eq_query_no_false_positive (memcmp : List CChar → List CChar → Nat → Int)
    (hm : MemcmpContract memcmp) (s q : kmer) (hs : s.wf) (hq : q.wf)
    (hcs : s.chars) (hcq : q.chars) (hdiff : s.k ≠ q.k ∨ s.data ≠ q.data) :
    (spgist_kmer_leaf_consistent memcmp ⟨[⟨BTEqualStrategyNumber, q⟩], s⟩).1 = false := by
  cases hres : (spgist_kmer_leaf_consistent memcmp ⟨[⟨BTEqualStrategyNumber, q⟩], s⟩).1 with
  | false => rfl
  | true =>
    exfalso
    have hall := (leafKeyLoop_holds memcmp s [⟨BTEqualStrategyNumber, q⟩] (by simp)).mp
      (by simpa [spgist_kmer_leaf_consistent] using hres)
    have hholds := hall ⟨BTEqualStrategyNumber, q⟩ (by simp)
    have hz : kmer_compare_internal memcmp s q = 0 := by
      simpa [strategyHolds] using hholds
    obtain ⟨hk, hmap⟩ := (kmer_compare_zero_iff memcmp hm s q hs hq).mp hz
    rcases hdiff with h | h
    · exact h hk
    · exact h (map_ubyte_inj s.data q.data hcs hcq hmap)

theorem eq_query_no_false_positive_witness :
    (spgist_kmer_leaf_consistent memcmpDiff
      ⟨[⟨BTEqualStrategyNumber, ⟨4, [IUPAC_A, IUPAC_A, IUPAC_C, IUPAC_T]⟩⟩],
       ⟨4, [IUPAC_A, IUPAC_A, IUPAC_C, IUPAC_G]⟩⟩).1 = false :=
  eq_query_no_false_positive memcmpDiff memcmpDiff_contract
    ⟨4, [IUPAC_A, IUPAC_A, IUPAC_C, IUPAC_G]⟩ ⟨4, [IUPAC_A, IUPAC_A, IUPAC_C, IUPAC_T]⟩
    (by decide) (by decide) (by decide) (by decide) (Or.inr (by decide))

/-- C24 (failing input): for the key set AAAA, AAAC, AACG, CCCC and a root with
the children A and C, the linear scan accepts AAAA and AAAC for LT(AACG) and
AAAC, AACG, CCCC for GE(AAAC), while `spgist_kmer_inner_consistent` returns no
child of the root for either predicate, so the descent reaches no leaf. -/
theorem range_query_prunes_matching_keys :
    linearScan memcmpDiff
        [⟨BTLessStrategyNumber, ⟨4, [IUPAC_A, IUPAC_A, IUPAC_C, IUPAC_G]⟩⟩] scenarioBucket =
      [⟨4, [IUPAC_A, IUPAC_A, IUPAC_A, IUPAC_A]⟩, ⟨4, [IUPAC_A, IUPAC_A, IUPAC_A, IUPAC_C]⟩] ∧
    spgist_kmer_inner_consistent
        ⟨[⟨BTLessStrategyNumber, ⟨4, [IUPAC_A, IUPAC_A, IUPAC_C, IUPAC_G]⟩⟩], 0,
         [IUPAC_A, IUPAC_C]⟩ = some ⟨0, [], []⟩ ∧
    linearScan memcmpDiff
        [⟨BTGreaterEqualStrategyNumber, ⟨4, [IUPAC_A, IUPAC_A, IUPAC_A, IUPAC_C]⟩⟩]
        scenarioBucket =
      [⟨4, [IUPAC_A, IUPAC_A, IUPAC_A, IUPAC_C]⟩, ⟨4, [IUPAC_A, IUPAC_A, IUPAC_C, IUPAC_G]⟩,
       ⟨4, [IUPAC_C, IUPAC_C, IUPAC_C, IUPAC_C]⟩] ∧
    spgist_kmer_inner_consistent
        ⟨[⟨BTGreaterEqualStrategyNumber, ⟨4, [IUPAC_A, IUPAC_A, IUPAC_A, IUPAC_C]⟩⟩], 0,
         [IUPAC_A, IUPAC_C]⟩ = some ⟨0, [], []⟩ := by
  decide

/-! ## Theorems: the split and the node it produces -/

/-- The split of a bucket in which every key is longer than `level` and has one
of A, C, G, T at position `level`: what the function returns. -/
theorem picksplit_canonical (inp : spgPickSplitIn)
    (h : canonicalAt inp.level inp.datums) :
    ∃ out, spgist_kmer_picksplit inp = some out ∧
      out.nodeLabels.Nodup ∧
      out.nNodes = out.nodeLabels.length ∧
      out.leafTupleDatums = inp.datums ∧
      out.prefixDatum.level = inp.level + 1 ∧
      out.mapTuplesToNodes.length = inp.datums.length ∧
      ∀ (i : Nat) (key : kmer), inp.datums[i]? = some key →
        ∃ n, out.mapTuplesToNodes[i]? = some (some n) ∧ n < out.nNodes ∧
          out.nodeLabels[n]? = key.data[inp.level]? := by
  obtain ⟨m, hm, hout⟩ := picksplit_eq inp (fun key hk => ⟨(h key hk).1, (h key hk).2.1⟩)
  have hreads : ∀ key ∈ inp.datums, ∃ s, key.data[inp.level]? = some s :=
    fun key hk => kmer_read_some key inp.level (h key hk).1 (h key hk).2.1
  obtain ⟨m1, hm1, hlen, hall⟩ := mapLoop_reads inp.level
    [symCount inp.level inp.datums IUPAC_A, symCount inp.level inp.datums IUPAC_C,
     symCount inp.level inp.datums IUPAC_G, symCount inp.level inp.datums IUPAC_T]
    inp.datums hreads
  have hmm : m1 = m := by rw [hm] at hm1; exact (Option.some.inj hm1).symm
  subst hmm
  obtain ⟨-, hnd, -⟩ := labelLoop_four_sublist
    (symCount inp.level inp.datums IUPAC_A) (symCount inp.level inp.datums IUPAC_C)
    (symCount inp.level inp.datums IUPAC_G) (symCount inp.level inp.datums IUPAC_T)
  refine ⟨_, hout, hnd, countNodes_four _ _ _ _, rfl, rfl, hlen, ?_⟩
  intro i key hi
  have hk : key ∈ inp.datums := List.getElem?_mem hi
  obtain ⟨s, hs, hmi⟩ := hall i key hi
  obtain ⟨-, hlt, s1, hs1, hr1⟩ := h key hk
  have hss : s1 = s := by rw [hr1] at hs; exact Option.some.inj hs
  subst hss
  have hpos : 0 < symCount inp.level inp.datums s1 :=
    (symCount_pos inp.level inp.datums s1).mpr ⟨key, hk, hlt, hr1⟩
  simp only [nucleotides, List.mem_cons, List.mem_singleton, List.not_mem_nil, or_false]
    at hs1
  have hcase : (s1 = IUPAC_A ∧ symCount inp.level inp.datums IUPAC_A > 0) ∨
      (s1 = IUPAC_C ∧ symCount inp.level inp.datums IUPAC_C > 0) ∨
      (s1 = IUPAC_G ∧ symCount inp.level inp.datums IUPAC_G > 0) ∨
      (s1 = IUPAC_T ∧ symCount inp.level inp.datums IUPAC_T > 0) := by
    rcases hs1 with e | e | e | e
    · exact Or.inl ⟨e, e ▸ hpos⟩
    · exact Or.inr (Or.inl ⟨e, e ▸ hpos⟩)
    · exact Or.inr (Or.inr (Or.inl ⟨e, e ▸ hpos⟩))
    · exact Or.inr (Or.inr (Or.inr ⟨e, e ▸ hpos⟩))
  obtain ⟨n, hn, hnlt, hlab⟩ := findNode_four _ _ _ _ s1 hcase
  exact ⟨n, by rw [hmi, hn], hnlt, by rw [hlab, hr1]⟩

/-- Two indices of a list without repetition that hold the same element are
equal. -/
theorem nodup_getElem?_inj (l : List CChar) (hnd : l.Nodup) (i j : Nat)
    (hi : i < l.length) (hij : l[i]? = l[j]?) : i = j := by
  have hj : j < l.length := by
    by_contra hn
    rw [List.getElem?_eq_getElem hi, List.getElem?_eq_none (by omega)] at hij
    exact absurd hij (by simp)
  rw [List.getElem?_eq_getElem hi, List.getElem?_eq_getElem hj] at hij
  exact (List.Nodup.getElem_inj_iff hnd).mp (Option.some.inj hij)

/-- C26: branch invariant of a split. For a bucket whose keys share an
identical prefix of length `level`, are all longer than `level` and have one of
A, C, G, T at position `level`, any two keys that `spgist_kmer_picksplit`
maps to the same child share an identical prefix of length `level + 1`, and
any two keys mapped to different children differ at position `level`. -/
theorem picksplit_branch_invariant (inp : spgPickSplitIn)
    (h : canonicalAt inp.level inp.datums) (hp : sharePrefix inp.level inp.datums) :
    ∃ out, spgist_kmer_picksplit inp = some out ∧
      ∀ (i j : Nat) (a b : kmer) (na nb : Nat),
        inp.datums[i]? = some a → inp.datums[j]? = some b →
        out.mapTuplesToNodes[i]? = some (some na) →
        out.mapTuplesToNodes[j]? = some (some nb) →
        (na = nb → a.data.take (inp.level + 1) = b.data.take (inp.level + 1)) ∧
        (na ≠ nb → a.data[inp.level]? ≠ b.data[inp.level]?) := by
  obtain ⟨out, hout, hnd, hnn, -, -, -, hmap⟩ := picksplit_canonical inp h
  refine ⟨out, hout, ?_⟩
  intro i j a b na nb hi hj hma hmb
  obtain ⟨n1, h1, hlt1, hl1⟩ := hmap i a hi
  obtain ⟨n2, h2, hlt2, hl2⟩ := hmap j b hj
  have e1 : n1 = na := by rw [hma] at h1; simpa using h1.symm
  have e2 : n2 = nb := by rw [hmb] at h2; simpa using h2.symm
  subst e1 e2
  constructor
  · intro e
    have hsym : a.data[inp.level]? = b.data[inp.level]? := by rw [← hl1, ← hl2, e]
    rw [List.take_succ, List.take_succ, hsym,
      hp a (List.getElem?_mem hi) b (List.getElem?_mem hj)]
  · intro hne hsym
    apply hne
    exact nodup_getElem?_inj out.nodeLabels hnd n1 n2 (by omega) (by rw [hl1, hl2, hsym])

theorem picksplit_branch_invariant_witness :
    ∃ out, spgist_kmer_picksplit ⟨scenarioBucket, 0⟩ = some out ∧
      ∀ (i j : Nat) (a b : kmer) (na nb : Nat),
        scenarioBucket[i]? = some a → scenarioBucket[j]? = some b →
        out.mapTuplesToNodes[i]? = some (some na) →
        out.mapTuplesToNodes[j]? = some (some nb) →
        (na = nb → a.data.take (0 + 1) = b.data.take (0 + 1)) ∧
        (na ≠ nb → a.data[0]? ≠ b.data[0]?) :=
  picksplit_branch_invariant ⟨scenarioBucket, 0⟩ scenarioBucket_canonical
    (by unfold sharePrefix scenarioBucket; decide)

/-- C27 (failing input): the split of the bucket AC, CA at level 0 emits the
children A, C, maps AC to child 0, and emits a node whose level is 1;
`spgist_kmer_choose` applied to that node and the key AC takes its level, 1,
from the node, reads the symbol C at position 1 and reports child 1. -/
theorem choose_after_picksplit_reads_next_level :
    spgist_kmer_picksplit ⟨[⟨2, [IUPAC_A, IUPAC_C]⟩, ⟨2, [IUPAC_C, IUPAC_A]⟩], 0⟩ =
      some { nNodes := 2
             nodeLabels := [IUPAC_A, IUPAC_C]
             mapTuplesToNodes := [some 0, some 1]
             leafTupleDatums := [⟨2, [IUPAC_A, IUPAC_C]⟩, ⟨2, [IUPAC_C, IUPAC_A]⟩]
             prefixDatum := { level := 1, nucleotide := 0, is_leaf := false } } ∧
    spgist_kmer_choose
      ⟨⟨2, [IUPAC_A, IUPAC_C]⟩, some { level := 1, nucleotide := 0, is_leaf := false },
       [IUPAC_A, IUPAC_C]⟩ = some (spgChooseOut.spgMatchNode (some 1)) := by
  decide

/-- Whenever the counting loop returns, the four counters it returns are the
initial ones plus the symbol counts of the bucket. -/
theorem countLoop_some_counts (level : Nat) (datums : List kmer) (a c g t : Nat)
    (cs : List Nat) (h : countLoop level datums [a, c, g, t] = some cs) :
    cs = [a + symCount level datums IUPAC_A, c + symCount level datums IUPAC_C,
          g + symCount level datums IUPAC_G, t + symCount level datums IUPAC_T] := by
  induction datums generalizing a c g t with
  | nil =>
    simp only [countLoop, Option.some.injEq] at h
    simp [symCount, ← h]
  | cons key rest ih =>
    by_cases hlt : level < key.k
    · cases hs : key.data[level]? with
      | none => simp [countLoop, hlt, hs] at h
      | some s =>
        simp only [countLoop, hlt, if_true, hs] at h
        by_cases hA : s = IUPAC_A
        · subst hA
          have := ih _ _ _ _ (by simpa [countNucleotide, incrCount] using h)
          simp [this, symCount, List.countP_cons, hlt, hs]
          omega
        by_cases hC : s = IUPAC_C
        · subst hC
          have := ih _ _ _ _ (by simpa [countNucleotide, incrCount] using h)
          simp [this, symCount, List.countP_cons, hlt, hs]
          omega
        by_cases hG : s = IUPAC_G
        · subst hG
          have := ih _ _ _ _ (by simpa [countNucleotide, incrCount] using h)
          simp [this, symCount, List.countP_cons, hlt, hs]
          omega
        by_cases hT : s = IUPAC_T
        · subst hT
          have := ih _ _ _ _ (by simpa [countNucleotide, incrCount] using h)
          simp [this, symCount, List.countP_cons, hlt, hs]
          omega
        · have := ih _ _ _ _ (by simpa [countNucleotide, hA, hC, hG, hT] using h)
          simp [this, symCount, List.countP_cons, hlt, hs, hA, hC, hG, hT]
    · simp only [countLoop, hlt, if_false] at h
      have := ih _ _ _ _ h
      simp [this, symCount, List.countP_cons, hlt]

/-- Whenever the mapping loop returns, the cell of every key holds the result
of the inner search for the symbol of the key. -/
theorem mapLoop_some (level : Nat) (counts : List Nat) (datums : List kmer)
    (m : List (Option Nat)) (h : mapLoop level counts datums = some m) :
    ∀ (i : Nat) (key : kmer), datums[i]? = some key → ∃ s, key.data[level]? = some s ∧
      m[i]? = some (findNode s counts nucleotides 0) := by
  induction datums generalizing m with
  | nil => intro i key hi; simp at hi
  | cons x rest ih =>
    cases hs : x.data[level]? with
    | none => simp [mapLoop, hs] at h
    | some s =>
      cases hr : mapLoop level counts rest with
      | none => simp [mapLoop, hs, hr] at h
      | some m1 =>
        simp only [mapLoop, hs, hr, Option.some.injEq] at h
        subst h
        intro i key hi
        cases i with
        | zero =>
          simp at hi
          subst hi
          exact ⟨s, hs, by simp⟩
        | succ i =>
          simp at hi
          simpa using ih m1 hr i key hi

/-- The inner search of the mapping loop finds no node for a symbol other than
A, C, G, T. -/
theorem findNode_noncanonical (a c g t : Nat) (s : CChar) (hs : s ∉ nucleotides) :
    findNode s [a, c, g, t] nucleotides 0 = none := by
  simp only [nucleotides, List.mem_cons, List.mem_singleton, List.not_mem_nil, or_false,
    not_or] at hs
  obtain ⟨hA, hC, hG, hT⟩ := hs
  have hA1 : ¬ IUPAC_A = s := fun e => hA e.symm
  have hC1 : ¬ IUPAC_C = s := fun e => hC e.symm
  have hG1 : ¬ IUPAC_G = s := fun e => hG e.symm
  have hT1 : ¬ IUPAC_T = s := fun e => hT e.symm
  by_cases ha : a > 0 <;> by_cases hc : c > 0 <;> by_cases hg : g > 0 <;>
    by_cases ht : t > 0 <;>
    simp [findNode, nucleotides, ha, hc, hg, ht, hA1, hC1, hG1, hT1]

/-- C28: a key whose symbol at position `level` is not one of A, C, G, T is
never assigned a branch group by `spgist_kmer_picksplit`: whenever the split
returns, the entry of the key in the key-to-child mapping is left unwritten,
its symbol is no child label, and the child labels are exactly the symbols of
A, C, G, T carried at `level` by some key longer than `level`. The split does
return when every key of the bucket is longer than `level`. -/
theorem picksplit_noncanonical_unassigned (inp : spgPickSplitIn) (i : Nat) (key : kmer)
    (s : CChar) (hi : inp.datums[i]? = some key)
    (hs : key.data[inp.level]? = some s) (hnc : s ∉ nucleotides) :
    (∀ out, spgist_kmer_picksplit inp = some out →
      out.mapTuplesToNodes[i]? = some none ∧ s ∉ out.nodeLabels ∧
      ∀ l, l ∈ out.nodeLabels ↔ l ∈ nucleotides ∧
        ∃ x ∈ inp.datums, inp.level < x.k ∧ x.data[inp.level]? = some l) ∧
    ((∀ x ∈ inp.datums, x.wf ∧ inp.level < x.k) →
      ∃ out, spgist_kmer_picksplit inp = some out) := by
  constructor
  · intro out hout
    unfold spgist_kmer_picksplit at hout
    cases hc : countLoop inp.level inp.datums [0, 0, 0, 0] with
    | none => simp [hc] at hout
    | some cs =>
      have hcs := countLoop_some_counts inp.level inp.datums 0 0 0 0 cs hc
      simp only [Nat.zero_add] at hcs
      subst hcs
      cases hm : mapLoop inp.level
          [symCount inp.level inp.datums IUPAC_A, symCount inp.level inp.datums IUPAC_C,
           symCount inp.level inp.datums IUPAC_G, symCount inp.level inp.datums IUPAC_T]
          inp.datums with
      | none => simp [hc, hm] at hout
      | some m =>
        simp only [hc, hm, Option.some.injEq] at hout
        subst hout
        have hlab : ∀ l, l ∈ labelLoop
            [symCount inp.level inp.datums IUPAC_A, symCount inp.level inp.datums IUPAC_C,
             symCount inp.level inp.datums IUPAC_G, symCount inp.level inp.datums IUPAC_T] ↔
            l ∈ nucleotides ∧
              ∃ x ∈ inp.datums, inp.level < x.k ∧ x.data[inp.level]? = some l := by
          intro l
          simp only [mem_labelLoop_four, gt_iff_lt, symCount_pos, nucleotides, List.mem_cons,
            List.mem_singleton, List.not_mem_nil, or_false]
          constructor
          · rintro (⟨rfl, hx⟩ | ⟨rfl, hx⟩ | ⟨rfl, hx⟩ | ⟨rfl, hx⟩)
            · exact ⟨Or.inl rfl, hx⟩
            · exact ⟨Or.inr (Or.inl rfl), hx⟩
            · exact ⟨Or.inr (Or.inr (Or.inl rfl)), hx⟩
            · exact ⟨Or.inr (Or.inr (Or.inr rfl)), hx⟩
          · rintro ⟨e | e | e | e, hx⟩
            · exact Or.inl ⟨e, e ▸ hx⟩
            · exact Or.inr (Or.inl ⟨e, e ▸ hx⟩)
            · exact Or.inr (Or.inr (Or.inl ⟨e, e ▸ hx⟩))
            · exact Or.inr (Or.inr (Or.inr ⟨e, e ▸ hx⟩))
        obtain ⟨s1, hs1, hmi⟩ := mapLoop_some _ _ _ m hm i key hi
        have hss : s1 = s := by rw [hs] at hs1; exact (Option.some.inj hs1).symm
        subst hss
        refine ⟨?_, ?_, hlab⟩
        · show m[i]? = some none
          rw [hmi, findNode_noncanonical _ _ _ _ s1 hnc]
        · intro hmem
          exact hnc ((hlab s1).mp hmem).1
  · intro hb
    obtain ⟨m, -, hout⟩ := picksplit_eq inp hb
    exact ⟨_, hout⟩

theorem picksplit_noncanonical_unassigned_witness :
    ∃ out, spgist_kmer_picksplit
        ⟨[⟨2, [IUPAC_A, IUPAC_N]⟩, ⟨2, [IUPAC_A, IUPAC_C]⟩], 1⟩ = some out ∧
      out.mapTuplesToNodes[0]? = some none ∧ IUPAC_N ∉ out.nodeLabels :=
  have h := picksplit_noncanonical_unassigned
    ⟨[⟨2, [IUPAC_A, IUPAC_N]⟩, ⟨2, [IUPAC_A, IUPAC_C]⟩], 1⟩ 0 ⟨2, [IUPAC_A, IUPAC_N]⟩ IUPAC_N
    (by decide) (by decide) (by decide)
  Exists.elim (h.2 (by decide)) (fun out hout => ⟨out, hout, (h.1 out hout).1, (h.1 out hout).2.1⟩)

/-- When the search loop of choose ends with `spgAddNode`, the label is the
symbol searched for and no child carries it. -/
theorem chooseLoop_add_label (c : CChar) (labels : List CChar) (n0 n : Nat) (l : CChar)
    (h : chooseLoop c labels n0 = spgChooseOut.spgAddNode l n) :
    l = c ∧ c ∉ labels := by
  induction labels generalizing n0 with
  | nil =>
    simp only [chooseLoop, spgChooseOut.spgAddNode.injEq] at h
    exact ⟨h.1.symm, by simp⟩
  | cons x rest ih =>
    by_cases hx : x = c
    · simp [chooseLoop, hx] at h
    · simp only [chooseLoop, hx, if_false] at h
      obtain ⟨h1, h2⟩ := ih (n0 + 1) h
      refine ⟨h1, ?_⟩
      intro hmem
      rcases List.mem_cons.mp hmem with e | e
      · exact hx e.symm
      · exact h2 e

/-- C30: node label invariant under choose. For a node whose child labels are
pairwise distinct and drawn from A, C, G, T and a key whose symbols are all in
A, C, G, T, a report `spgAddNode` with label `l` has `l` in A, C, G, T and not
among the labels of the node, so the labels with `l` added are still pairwise
distinct and at most 4; the node had fewer than 4 labels. -/
theorem choose_addchild_keeps_labels (inp : spgChooseIn) (l : CChar) (n : Nat)
    (hnd : inp.nodeLabels.Nodup) (hsub : ∀ x ∈ inp.nodeLabels, x ∈ nucleotides)
    (hkey : ∀ x ∈ inp.datum.data, x ∈ nucleotides)
    (hres : spgist_kmer_choose inp = some (spgChooseOut.spgAddNode l n)) :
    l ∈ nucleotides ∧ l ∉ inp.nodeLabels ∧ (inp.nodeLabels ++ [l]).Nodup ∧
      (inp.nodeLabels ++ [l]).length ≤ 4 ∧ inp.nodeLabels.length < 4 := by
  unfold spgist_kmer_choose at hres
  by_cases hge : chooseLevel inp ≥ inp.datum.k
  · simp [hge] at hres
  · cases hread : inp.datum.data[chooseLevel inp]? with
    | none => simp [hge, hread] at hres
    | some c =>
      simp only [hge, if_false, hread, Option.some.injEq] at hres
      obtain ⟨hl, habs⟩ := chooseLoop_add_label c inp.nodeLabels 0 n l hres
      subst hl
      have hmem : l ∈ nucleotides := hkey l (List.getElem?_mem hread)
      have hnd2 : (inp.nodeLabels ++ [l]).Nodup := by
        rw [List.nodup_append]
        refine ⟨hnd, by simp, ?_⟩
        intro a ha hb
        simp only [List.mem_singleton] at hb
        subst hb
        exact habs ha
      have hsub2 : inp.nodeLabels ++ [l] ⊆ nucleotides := by
        intro x hx
        rcases List.mem_append.mp hx with e | e
        · exact hsub x e
        · simp only [List.mem_singleton] at e
          subst e
          exact hmem
      have hlen : (inp.nodeLabels ++ [l]).length ≤ nucleotides.length :=
        (List.Nodup.subperm hnd2 hsub2).length_le
      have h4 : nucleotides.length = 4 := rfl
      refine ⟨hmem, habs, hnd2, by omega, ?_⟩
      simp only [List.length_append, List.length_singleton] at hlen
      omega

theorem choose_addchild_keeps_labels_witness :
    IUPAC_G ∈ nucleotides ∧ IUPAC_G ∉ ([IUPAC_A, IUPAC_C] : List CChar) ∧
      (([IUPAC_A, IUPAC_C] : List CChar) ++ [IUPAC_G]).Nodup ∧
      (([IUPAC_A, IUPAC_C] : List CChar) ++ [IUPAC_G]).length ≤ 4 ∧
      ([IUPAC_A, IUPAC_C] : List CChar).length < 4 :=
  choose_addchild_keeps_labels
    ⟨⟨2, [IUPAC_A, IUPAC_G]⟩, some ⟨1, IUPAC_A, false⟩, [IUPAC_A, IUPAC_C]⟩ IUPAC_G 0
    (by decide) (by decide) (by decide) (by decide)

/-! ## Theorems: kmer_in -/

/-- Upper-casing twice is upper-casing once. -/
theorem toupper_idem (c : CChar) : toupper (toupper c) = toupper c := by
  unfold toupper
  by_cases h : 97 ≤ c ∧ c ≤ 122
  · have h2 : ¬ (97 ≤ c - 32 ∧ c - 32 ≤ 122) := by
      rintro ⟨h3, -⟩
      have a1 : @LE.le Int _ c 122 := h.2
      have a2 : @LE.le Int _ 97 (@HSub.hSub Int Int Int _ c 32) := h3
      omega
    rw [if_pos h, if_neg h2]
  · rw [if_neg h, if_neg h]

/-- A character is accepted by `is_valid_nucleotide` exactly when its upper
case is one of the sixteen IUPAC codes. -/
theorem is_valid_nucleotide_iff (c : CChar) :
    is_valid_nucleotide c = true ↔ toupper c ∈ iupacCodes := by
  simp [is_valid_nucleotide, iupacCodes, or_assoc]

/-- The validation loop finds no offending character exactly when the upper
case of every character is an IUPAC code. -/
theorem kmerInValidate_none_iff (str : List CChar) :
    kmerInValidate str = none ↔ ∀ c ∈ str, toupper c ∈ iupacCodes := by
  induction str with
  | nil => simp [kmerInValidate]
  | cons ch rest ih =>
    have hv : is_valid_nucleotide (toupper ch) = true ↔ toupper ch ∈ iupacCodes := by
      rw [is_valid_nucleotide_iff, toupper_idem]
    cases hb : is_valid_nucleotide (toupper ch) with
    | true =>
      have := hv.mp hb
      simp [kmerInValidate, hb, ih, this]
    | false =>
      have : toupper ch ∉ iupacCodes := fun hm => by
        rw [hv.mpr hm] at hb
        exact absurd hb (by decide)
      simp [kmerInValidate, hb, this]

/-- C29: `kmer_in` fails if and only if its input string is empty or holds a
character whose upper case is not one of the IUPAC codes A C G T R Y S W K M B
D H V N and '-'; on success the k-mer has `k` equal to the length of the
input, hence at least 1, every stored symbol is the upper-cased input
character, and `is_valid_nucleotide` holds of every stored symbol. -/
theorem kmer_in_spec (str : List CChar) :
    ((∃ e, kmer_in str = Except.error e) ↔
      (str = [] ∨ ∃ c ∈ str, toupper c ∉ iupacCodes)) ∧
    (∀ x, kmer_in str = Except.ok x →
      x.k = str.length ∧ x.k ≥ 1 ∧ x.wf ∧ x.data = str.map toupper ∧
      ∀ s ∈ x.data, is_valid_nucleotide s = true) := by
  by_cases he : str = []
  · subst he
    simp [kmer_in]
  · have hlen : str.length ≠ 0 := fun e => he (List.length_eq_zero.mp e)
    cases hv : kmerInValidate str with
    | some ch =>
      have hnot : ¬ ∀ c ∈ str, toupper c ∈ iupacCodes := fun hall =>
        absurd ((kmerInValidate_none_iff str).mpr hall) (by simp [hv])
      push_neg at hnot
      constructor
      · simp only [kmer_in, hlen, if_false, hv]
        exact ⟨fun _ => Or.inr hnot, fun _ => ⟨_, rfl⟩⟩
      · intro x hx
        simp [kmer_in, hlen, hv] at hx
    | none =>
      have hall := (kmerInValidate_none_iff str).mp hv
      constructor
      · simp only [kmer_in, hlen, if_false, hv]
        constructor
        · rintro ⟨e, h⟩
          exact absurd h (by simp)
        · rintro (h | ⟨c, hc, hbad⟩)
          · exact absurd h he
          · exact absurd (hall c hc) hbad
      · intro x hx
        simp only [kmer_in, hlen, if_false, hv, Except.ok.injEq] at hx
        subst hx
        refine ⟨rfl, by simp only []; omega, by simp [kmer.wf], rfl, ?_⟩
        intro s hs
        simp only [List.mem_map] at hs
        obtain ⟨c, hc, rfl⟩ := hs
        rw [is_valid_nucleotide_iff, toupper_idem]
        exact hall c hc

theorem kmer_in_spec_witness :
    (2 : Nat) = ([97, 110] : List CChar).length ∧ (2 : Nat) ≥ 1 ∧
      (⟨2, [IUPAC_A, IUPAC_N]⟩ : kmer).wf ∧
      ([IUPAC_A, IUPAC_N] : List CChar) = ([97, 110] : List CChar).map toupper ∧
      ∀ s ∈ ([IUPAC_A, IUPAC_N] : List CChar), is_valid_nucleotide s = true :=
  (kmer_in_spec [97, 110]).2 ⟨2, [IUPAC_A, IUPAC_N]⟩ (by rfl)

/-! ## Theorems: recursive splitting -/

/-- The group of child `j`, key by key. -/
theorem groupOf_cons (x : kmer) (xs : List kmer) (y : Option Nat) (ys : List (Option Nat))
    (j : Nat) :
    groupOf (x :: xs) (y :: ys) j =
      if y = some j then x :: groupOf xs ys j else groupOf xs ys j := by
  by_cases h : y = some j <;> simp [groupOf, List.filter_cons, h]

/-- A key is in the group of child `j` exactly when some cell of the mapping
that belongs to it holds `j`. -/
theorem mem_groupOf (datums : List kmer) (m : List (Option Nat)) (j : Nat) (key : kmer) :
    key ∈ groupOf datums m j ↔
      ∃ i : Nat, datums[i]? = some key ∧ m[i]? = some (some j) := by
  induction datums generalizing m with
  | nil => simp [groupOf]
  | cons x xs ih =>
    cases m with
    | nil => simp [groupOf]
    | cons y ys =>
      rw [groupOf_cons]
      constructor
      · intro h
        by_cases hy : y = some j
        · rw [if_pos hy] at h
          rcases List.mem_cons.mp h with e | e
          · exact ⟨0, by simp [e], by simp [hy]⟩
          · obtain ⟨i, h1, h2⟩ := (ih ys).mp e
            exact ⟨i + 1, by simpa using h1, by simpa using h2⟩
        · rw [if_neg hy] at h
          obtain ⟨i, h1, h2⟩ := (ih ys).mp h
          exact ⟨i + 1, by simpa using h1, by simpa using h2⟩
      · rintro ⟨i, h1, h2⟩
        cases i with
        | zero =>
          simp only [List.getElem?_cons_zero, Option.some.injEq] at h1 h2
          rw [if_pos h2, h1]
          exact List.mem_cons_self _ _
        | succ i =>
          simp only [List.getElem?_cons_succ] at h1 h2
          have hmem := (ih ys).mpr ⟨i, h1, h2⟩
          by_cases hy : y = some j
          · rw [if_pos hy]
            exact List.mem_cons_of_mem _ hmem
          · rw [if_neg hy]
            exact hmem

/-- The group of a child is a sublist of the bucket. -/
theorem groupOf_sublist (datums : List kmer) (m : List (Option Nat)) (j : Nat) :
    (groupOf datums m j).Sublist datums := by
  induction datums generalizing m with
  | nil => simp [groupOf]
  | cons x xs ih =>
    cases m with
    | nil => simp [groupOf]
    | cons y ys =>
      rw [groupOf_cons]
      by_cases hy : y = some j
      · rw [if_pos hy]
        exact List.Sublist.cons₂ x (ih ys)
      · rw [if_neg hy]
        exact List.Sublist.cons x (ih ys)

/-- Distinct keys of length `K` that share a prefix of length `K` are at most
one key. -/
theorem distinct_full_prefix (K : Nat) (bucket : List kmer)
    (hd : distinctKeysOfLength K bucket) (hp : sharePrefix K bucket) :
    bucket.length ≤ 1 := by
  match bucket, hd, hp with
  | [], _, _ => simp
  | [_], _, _ => simp
  | x :: y :: rest, hd, hp =>
    exfalso
    obtain ⟨hnd, hall⟩ := hd
    obtain ⟨hx1, hx2, -⟩ := hall x (by simp)
    obtain ⟨hy1, hy2, -⟩ := hall y (by simp)
    unfold kmer.wf at hx1 hy1
    have ht := hp x (by simp) y (by simp)
    rw [List.take_of_length_le (by omega), List.take_of_length_le (by omega)] at ht
    have hxy : x = y := by
      cases x
      cases y
      simp only [kmer.mk.injEq]
      simp only at hx2 hy2 ht
      exact ⟨by omega, ht⟩
    rw [hxy] at hnd
    simp at hnd

/-- The groups of a split keep the invariant of the recursion one level
deeper: distinct keys of length `K` that share a prefix of length
`level + 1`, all taken from the bucket. -/
theorem groupOf_invariant (K level N : Nat) (bucket : List kmer) (m : List (Option Nat))
    (labels : List CChar) (hd : distinctKeysOfLength K bucket)
    (hp : sharePrefix level bucket)
    (hmap : ∀ (i : Nat) (key : kmer), bucket[i]? = some key →
      ∃ n, m[i]? = some (some n) ∧ n < N ∧ labels[n]? = key.data[level]?)
    (j : Nat) :
    distinctKeysOfLength K (groupOf bucket m j) ∧
      sharePrefix (level + 1) (groupOf bucket m j) := by
  have hsub := groupOf_sublist bucket m j
  refine ⟨⟨hsub.nodup hd.1, fun key hk => hd.2 key (hsub.subset hk)⟩, ?_⟩
  intro a ha b hb
  obtain ⟨i1, ha1, ha2⟩ := (mem_groupOf bucket m j a).mp ha
  obtain ⟨i2, hb1, hb2⟩ := (mem_groupOf bucket m j b).mp hb
  obtain ⟨n1, hn1, -, hl1⟩ := hmap i1 a ha1
  obtain ⟨n2, hn2, -, hl2⟩ := hmap i2 b hb1
  have e1 : n1 = j := by rw [ha2] at hn1; simpa using hn1.symm
  have e2 : n2 = j := by rw [hb2] at hn2; simpa using hn2.symm
  subst e1
  subst e2
  rw [List.take_succ, List.take_succ, ← hl1, ← hl2,
    hp a (hsub.subset ha) b (hsub.subset hb)]

/-- Collecting the leaf buckets of every group: when every group yields leaf
buckets of at most `C` keys that hold exactly its keys, so does the list of
groups. -/
theorem splitEach_all (C : Nat) (f : List kmer → Option (List (List kmer)))
    (gs : List (List kmer))
    (h : ∀ g ∈ gs, ∃ ls, f g = some ls ∧ (∀ l ∈ ls, l.length ≤ C) ∧
      ∀ x, x ∈ g ↔ ∃ l ∈ ls, x ∈ l) :
    ∃ ls, splitEach f gs = some ls ∧ (∀ l ∈ ls, l.length ≤ C) ∧
      ∀ x, (∃ g ∈ gs, x ∈ g) ↔ ∃ l ∈ ls, x ∈ l := by
  induction gs with
  | nil => exact ⟨[], rfl, by simp, by simp⟩
  | cons g rest ih =>
    obtain ⟨a, ha, hsa, hca⟩ := h g (by simp)
    obtain ⟨b, hb, hsb, hcb⟩ := ih (fun g1 hg1 => h g1 (by simp [hg1]))
    refine ⟨a ++ b, by simp [splitEach, ha, hb], ?_, ?_⟩
    · intro l hl
      rcases List.mem_append.mp hl with e | e
      · exact hsa l e
      · exact hsb l e
    · intro x
      constructor
      · rintro ⟨g1, hg1, hx⟩
        rcases List.mem_cons.mp hg1 with e | e
        · subst e
          obtain ⟨l, hl, hxl⟩ := (hca x).mp hx
          exact ⟨l, List.mem_append_left _ hl, hxl⟩
        · obtain ⟨l, hl, hxl⟩ := (hcb x).mp ⟨g1, e, hx⟩
          exact ⟨l, List.mem_append_right _ hl, hxl⟩
      · rintro ⟨l, hl, hxl⟩
        rcases List.mem_append.mp hl with e | e
        · exact ⟨g, by simp, (hca x).mpr ⟨l, e, hxl⟩⟩
        · obtain ⟨g1, hg1, hx⟩ := (hcb x).mpr ⟨l, e, hxl⟩
          exact ⟨g1, List.mem_cons_of_mem _ hg1, hx⟩

/-- Recursive splitting of distinct keys of one length `K`, started at a level
with `n` levels left: it returns leaf buckets of at most `C` keys that hold
exactly the keys of the bucket. -/
theorem splitAll_levels (C K : Nat) (hC : 1 ≤ C) (n : Nat) :
    ∀ (level : Nat) (bucket : List kmer), level + n = K →
      distinctKeysOfLength K bucket → sharePrefix level bucket →
      ∃ leaves, splitAll C n level bucket = some leaves ∧
        (∀ l ∈ leaves, l.length ≤ C) ∧ ∀ x, x ∈ bucket ↔ ∃ l ∈ leaves, x ∈ l := by
  induction n with
  | zero =>
    intro level bucket hlev hd hp
    have hl : level = K := by omega
    subst hl
    have h1 := distinct_full_prefix level bucket hd hp
    have h2 : bucket.length ≤ C := by omega
    exact ⟨[bucket], by simp [splitAll, h2], by simpa using h2, by simp⟩
  | succ n ih =>
    intro level bucket hlev hd hp
    by_cases hsmall : bucket.length ≤ C
    · exact ⟨[bucket], by simp [splitAll, hsmall], by simpa using hsmall, by simp⟩
    · have hcan : canonicalAt level bucket := by
        intro key hk
        obtain ⟨hwf, hkK, hsym⟩ := hd.2 key hk
        have hlt : level < key.k := by omega
        obtain ⟨s, hs⟩ := kmer_read_some key level hwf hlt
        exact ⟨hwf, hlt, s, hsym s (List.getElem?_mem hs), hs⟩
      obtain ⟨out, hout, -, -, hleaf, hpl, -, hmap⟩ :=
        picksplit_canonical ⟨bucket, level⟩ hcan
      simp only at hleaf hpl hmap
      have hgroups : ∀ g ∈ splitGroups out,
          ∃ ls, splitAll C n (level + 1) g = some ls ∧ (∀ l ∈ ls, l.length ≤ C) ∧
            ∀ x, x ∈ g ↔ ∃ l ∈ ls, x ∈ l := by
        intro g hg
        simp only [splitGroups, List.mem_map, List.mem_range, hleaf] at hg
        obtain ⟨j, -, rfl⟩ := hg
        obtain ⟨hd1, hp1⟩ := groupOf_invariant K level out.nNodes bucket
          out.mapTuplesToNodes out.nodeLabels hd hp hmap j
        exact ih (level + 1) _ (by omega) hd1 hp1
      obtain ⟨ls, hls, hsz, hcov⟩ := splitEach_all C (splitAll C n (level + 1))
        (splitGroups out) hgroups
      refine ⟨ls, ?_, hsz, ?_⟩
      · simp only [splitAll, hsmall, if_false, hout, hpl, hls]
      · intro x
        rw [← hcov x]
        constructor
        · intro hx
          obtain ⟨i, hi⟩ := List.mem_iff_getElem?.mp hx
          obtain ⟨j, hj, hjn, -⟩ := hmap i x hi
          refine ⟨groupOf bucket out.mapTuplesToNodes j, ?_, ?_⟩
          · simp only [splitGroups, List.mem_map, List.mem_range, hleaf]
            exact ⟨j, hjn, rfl⟩
          · exact (mem_groupOf bucket out.mapTuplesToNodes j x).mpr ⟨i, hi, hj⟩
        · rintro ⟨g, hg, hx⟩
          simp only [splitGroups, List.mem_map, List.mem_range, hleaf] at hg
          obtain ⟨j, -, rfl⟩ := hg
          exact (groupOf_sublist bucket out.mapTuplesToNodes j).subset hx

/-- Recursive splitting of two copies of the key A with capacity 1, from
level 1 on: the split reads past the key. -/
theorem splitAll_duplicates_level_one (fuel : Nat) :
    splitAll 1 fuel 1 [⟨1, [IUPAC_A]⟩, ⟨1, [IUPAC_A]⟩] = none := by
  have hp : spgist_kmer_picksplit ⟨[⟨1, [IUPAC_A]⟩, ⟨1, [IUPAC_A]⟩], 1⟩ = none := by decide
  cases fuel with
  | zero => simp [splitAll]
  | succ fuel => simp [splitAll, hp]

/-- Recursive splitting of two copies of the key A with capacity 1 never
returns leaf buckets, whatever the bound on the depth. -/
theorem splitAll_duplicates (fuel : Nat) :
    splitAll 1 fuel 0 [⟨1, [IUPAC_A]⟩, ⟨1, [IUPAC_A]⟩] = none := by
  have hp : spgist_kmer_picksplit ⟨[⟨1, [IUPAC_A]⟩, ⟨1, [IUPAC_A]⟩], 0⟩ =
      some { nNodes := 1
             nodeLabels := [IUPAC_A]
             mapTuplesToNodes := [some 0, some 0]
             leafTupleDatums := [⟨1, [IUPAC_A]⟩, ⟨1, [IUPAC_A]⟩]
             prefixDatum := { level := 1, nucleotide := 0, is_leaf := false } } := by
    decide
  have hg : groupOf [⟨1, [IUPAC_A]⟩, ⟨1, [IUPAC_A]⟩] [some 0, some 0] 0 =
      [⟨1, [IUPAC_A]⟩, ⟨1, [IUPAC_A]⟩] := by
    decide
  cases fuel with
  | zero => simp [splitAll]
  | succ fuel =>
    simp [splitAll, hp, hg, splitEach, splitAll_duplicates_level_one]

/-- C25 (counterexample): with capacity 1 and the bucket of two copies of the
key A, the split at level 0 puts both keys in the single group A, and no
number of recursive applications produces leaf buckets: the keys cannot be
told apart by any symbol. -/
theorem split_of_duplicates_never_ends :
    ¬ ∃ fuel leaves, splitAll 1 fuel 0 [⟨1, [IUPAC_A]⟩, ⟨1, [IUPAC_A]⟩] = some leaves := by
  rintro ⟨fuel, leaves, h⟩
  rw [splitAll_duplicates fuel] at h
  exact absurd h (by simp)

/-- C25 (amended): for every capacity `C >= 1` and every bucket of pairwise
distinct k-mers over A, C, G, T of one common length `K` that share a prefix of
length `level`, applying `spgist_kmer_picksplit` recursively, one level deeper
each time, ends within `K - level` nested applications, and the resulting leaf
buckets hold at most `C` keys each and exactly the keys of the bucket. -/
theorem split_terminates (C K level : Nat) (bucket : List kmer) (hC : 1 ≤ C)
    (hlev : level ≤ K) (hd : distinctKeysOfLength K bucket)
    (hp : sharePrefix level bucket) :
    ∃ leaves, splitAll C (K - level) level bucket = some leaves ∧
      (∀ l ∈ leaves, l.length ≤ C) ∧ ∀ x, x ∈ bucket ↔ ∃ l ∈ leaves, x ∈ l :=
  splitAll_levels C K hC (K - level) level bucket (by omega) hd hp

theorem split_terminates_witness :
    ∃ leaves, splitAll 2 (4 - 0) 0 scenarioBucket = some leaves ∧
      (∀ l ∈ leaves, l.length ≤ 2) ∧ ∀ x, x ∈ scenarioBucket ↔ ∃ l ∈ leaves, x ∈ l :=
  split_terminates 2 4 0 scenarioBucket (by decide) (by decide)
    (by unfold distinctKeysOfLength scenarioBucket; decide)
    (by unfold sharePrefix scenarioBucket; decide)

/-! ## Theorems: further properties of the consistent functions -/

/-- C31 (failing input): with the pairwise distinct labels A, C at level 0 and
the predicate EQ(AC) given twice, `spgist_kmer_inner_consistent` returns child
0 twice; with the single label A and EQ(A) given twice the second entry is
written past the end of the output arrays, which have one cell. -/
theorem inner_consistent_repeats_child :
    ([IUPAC_A, IUPAC_C] : List CChar).Nodup ∧
    spgist_kmer_inner_consistent
      ⟨[⟨BTEqualStrategyNumber, ⟨2, [IUPAC_A, IUPAC_C]⟩⟩,
        ⟨BTEqualStrategyNumber, ⟨2, [IUPAC_A, IUPAC_C]⟩⟩], 0, [IUPAC_A, IUPAC_C]⟩
      = some ⟨2, [0, 0], [1, 1]⟩ ∧
    spgist_kmer_inner_consistent
      ⟨[⟨BTEqualStrategyNumber, ⟨1, [IUPAC_A]⟩⟩,
        ⟨BTEqualStrategyNumber, ⟨1, [IUPAC_A]⟩⟩], 0, [IUPAC_A]⟩
      = none := by
  decide

/-- C33: with an empty predicate list `spgist_kmer_leaf_consistent` reports
no match, whatever the stored key: `match` keeps its initial value false. -/
theorem leaf_consistent_empty (memcmp : List CChar → List CChar → Nat → Int)
    (leaf : kmer) :
    (spgist_kmer_leaf_consistent memcmp ⟨[], leaf⟩).1 = false :=
  rfl

/-! ## Theorems: the text codec of k-mers -/

/-- An IUPAC code is not the NUL byte. -/
theorem iupacCodes_ne_zero (c : CChar) (h : c ∈ iupacCodes) : c ≠ 0 := by
  intro e
  subst e
  revert h
  decide

/-- The C string of a buffer without NUL byte is the whole buffer. -/
theorem cstring_of_nonzero (buf : List CChar) (h : ∀ c ∈ buf, c ≠ 0) :
    cstring buf = buf := by
  unfold cstring
  rw [List.takeWhile_eq_self_iff]
  intro c hc
  simpa using h c hc

/-- On a non-empty string whose characters are valid in upper case, `kmer_in`
returns the k-mer of the upper-cased characters. -/
theorem kmer_in_valid (s : List CChar) (hne : s ≠ [])
    (hvalid : ∀ c ∈ s, toupper c ∈ iupacCodes) :
    kmer_in s = Except.ok ⟨s.length, s.map toupper⟩ := by
  have hlen : s.length ≠ 0 := fun e => hne (List.length_eq_zero.mp e)
  have hv := (kmerInValidate_none_iff s).mpr hvalid
  simp only [kmer_in, hlen, if_false, hv]

/-- A string accepted by `kmer_in` is non-empty and valid in upper case, and
the k-mer returned is that of the upper-cased characters. -/
theorem kmer_in_ok (s : List CChar) (x : kmer) (h : kmer_in s = Except.ok x) :
    s ≠ [] ∧ (∀ c ∈ s, toupper c ∈ iupacCodes) ∧ x = ⟨s.length, s.map toupper⟩ := by
  by_cases he : s = []
  · subst he
    simp [kmer_in] at h
  · have hlen : s.length ≠ 0 := fun e => he (List.length_eq_zero.mp e)
    cases hv : kmerInValidate s with
    | some ch => simp [kmer_in, hlen, hv] at h
    | none =>
      simp only [kmer_in, hlen, if_false, hv, Except.ok.injEq] at h
      exact ⟨he, (kmerInValidate_none_iff s).mp hv, h.symm⟩

/-- C32: text round trip of the k-mer codec. For a non-empty string `s` of
valid IUPAC characters in any letter case, `kmer_in` accepts `s` and
`kmer_out` of the result is `s` upper-cased; and for every k-mer `x` produced
by `kmer_in`, `kmer_in` accepts `kmer_out x` and the result equals `x` under
`kmer_compare_internal`. -/
theorem kmer_text_round_trip (memcmp : List CChar → List CChar → Nat → Int)
    (hm : MemcmpContract memcmp) (s : List CChar) :
    ((s ≠ [] ∧ ∀ c ∈ s, toupper c ∈ iupacCodes) →
      ∃ x, kmer_in s = Except.ok x ∧ kmer_out x = some (s.map toupper)) ∧
    (∀ x, kmer_in s = Except.ok x →
      ∃ out y, kmer_out x = some out ∧ kmer_in out = Except.ok y ∧
        kmer_compare_internal memcmp x y = 0) := by
  have hout : ∀ t : List CChar, (∀ c ∈ t, toupper c ∈ iupacCodes) →
      kmer_out ⟨t.length, t.map toupper⟩ = some (t.map toupper) := by
    intro t ht
    have hnz : ∀ c ∈ t.map toupper, c ≠ 0 := by
      intro c hc
      obtain ⟨c0, hc0, rfl⟩ := List.mem_map.mp hc
      exact iupacCodes_ne_zero _ (ht c0 hc0)
    have htake : (t.map toupper).take t.length = t.map toupper :=
      List.take_of_length_le (by simp)
    simp only [kmer_out, List.length_map, le_refl, if_true, htake, cstring_of_nonzero _ hnz]
  constructor
  · rintro ⟨hne, hvalid⟩
    exact ⟨_, kmer_in_valid s hne hvalid, hout s hvalid⟩
  · intro x hx
    obtain ⟨hne, hvalid, rfl⟩ := kmer_in_ok s x hx
    have hne2 : s.map toupper ≠ [] := by simpa using hne
    have hvalid2 : ∀ c ∈ s.map toupper, toupper c ∈ iupacCodes := by
      intro c hc
      obtain ⟨c0, hc0, rfl⟩ := List.mem_map.mp hc
      rw [toupper_idem]
      exact hvalid c0 hc0
    have hin := kmer_in_valid (s.map toupper) hne2 hvalid2
    have hidem : (s.map toupper).map toupper = s.map toupper := by
      rw [List.map_map]
      apply List.map_congr_left
      intro c _
      exact toupper_idem c
    rw [hidem, List.length_map] at hin
    refine ⟨_, _, hout s hvalid, hin, ?_⟩
    exact (kmer_compare_zero_iff memcmp hm _ _ (by simp [kmer.wf]) (by simp [kmer.wf])).mpr
      ⟨rfl, rfl⟩

theorem kmer_text_round_trip_witness :
    (∃ x, kmer_in [97, 110] = Except.ok x ∧
      kmer_out x = some (([97, 110] : List CChar).map toupper)) ∧
    (∃ out y, kmer_out ⟨2, [IUPAC_A, IUPAC_N]⟩ = some out ∧ kmer_in out = Except.ok y ∧
      kmer_compare_internal memcmpDiff ⟨2, [IUPAC_A, IUPAC_N]⟩ y = 0) :=
  ⟨(kmer_text_round_trip memcmpDiff memcmpDiff_contract [97, 110]).1
      ⟨by decide, by decide⟩,
   (kmer_text_round_trip memcmpDiff memcmpDiff_contract [97, 110]).2
      ⟨2, [IUPAC_A, IUPAC_N]⟩ (by rfl)⟩

/-! ## Theorems: hashes, complement and palindromes -/

/-- C34 (failing input): for the sequence CAAA and k = 2 the 2-bit encodings of
the k-mers CA, AA, AA are 4, 0, 0, while `dna_kmer_hashes` returns 4, 16, 0:
the mask of `rolling_hash_remove_nucleotide` keeps `k` symbols, so after the
shift element 1 encodes the three symbols CAA, and the two positions that hold
AA receive different values. -/
theorem kmer_hashes_keep_leftmost_symbol :
    expectedKmerHashes [IUPAC_C, IUPAC_A, IUPAC_A, IUPAC_A] 2 = [4, 0, 0] ∧
    rolling_hash_remove_nucleotide 4 IUPAC_C 2 = some 4 ∧
    dna_kmer_hashes ⟨[IUPAC_C, IUPAC_A, IUPAC_A, IUPAC_A]⟩ 2 =
      some (Except.ok [4, 16, 0]) :=
  ⟨by decide, by decide, by rfl⟩

/-- C35 (failing input): `dna_is_palindrome` accepts the sequences A and AAT,
of odd length, whose reverse complements are T and ATT: the middle symbol is
never compared with its complement. -/
theorem palindrome_ignores_middle_symbol :
    dna_is_palindrome ⟨[IUPAC_A]⟩ = true ∧
    dna_reverse_complement ⟨[IUPAC_A]⟩ = ⟨[IUPAC_T]⟩ ∧
    dna_is_palindrome ⟨[IUPAC_A, IUPAC_A, IUPAC_T]⟩ = true ∧
    dna_reverse_complement ⟨[IUPAC_A, IUPAC_A, IUPAC_T]⟩ = ⟨[IUPAC_A, IUPAC_T, IUPAC_T]⟩ := by
  decide

/-- C36: the hash functions are consistent with k-mer equality. For two
k-mers with `kmer_compare_internal a b = 0`, `kmer_hash a = kmer_hash b` and
`kmer_hash_extended a seed = kmer_hash_extended b seed` for every seed,
whatever functions of the hashed bytes the host's `hash_any` and
`hash_any_extended` are. -/
theorem kmer_hash_respects_equality (memcmp : List CChar → List CChar → Nat → Int)
    (hm : MemcmpContract memcmp) (hash_any : List Int → Nat)
    (hash_any_extended : List Int → Nat → Nat) (int32_bytes : Nat → List Int)
    (a b : kmer) (ha : a.wf) (hb : b.wf) (h : kmer_compare_internal memcmp a b = 0) :
    kmer_hash hash_any int32_bytes a = kmer_hash hash_any int32_bytes b ∧
    ∀ seed, kmer_hash_extended hash_any_extended int32_bytes a seed =
      kmer_hash_extended hash_any_extended int32_bytes b seed := by
  obtain ⟨hk, hmap⟩ := (kmer_compare_zero_iff memcmp hm a b ha hb).mp h
  unfold kmer.wf at ha hb
  have hta : a.data.take a.k = a.data := List.take_of_length_le (by omega)
  have htb : b.data.take b.k = b.data := List.take_of_length_le (by omega)
  constructor
  · unfold kmer_hash
    rw [hta, htb, hmap, hk]
  · intro seed
    unfold kmer_hash_extended
    rw [hta, htb, hmap, hk]

theorem kmer_hash_respects_equality_witness :
    kmer_hash (fun bytes => bytes.length) (fun k => [(k : Int)]) ⟨2, [IUPAC_A, IUPAC_C]⟩ =
      kmer_hash (fun bytes => bytes.length) (fun k => [(k : Int)])
        ⟨2, [IUPAC_A, IUPAC_C]⟩ ∧
    ∀ seed, kmer_hash_extended (fun bytes seed => bytes.length + seed)
        (fun k => [(k : Int)]) ⟨2, [IUPAC_A, IUPAC_C]⟩ seed =
      kmer_hash_extended (fun bytes seed => bytes.length + seed)
        (fun k => [(k : Int)]) ⟨2, [IUPAC_A, IUPAC_C]⟩ seed :=
  kmer_hash_respects_equality memcmpDiff memcmpDiff_contract (fun bytes => bytes.length)
    (fun bytes seed => bytes.length + seed) (fun k => [(k : Int)])
    ⟨2, [IUPAC_A, IUPAC_C]⟩ ⟨2, [IUPAC_A, IUPAC_C]⟩ (by decide) (by decide) (by decide)

/-- Complementing twice gives back every character with a table index. -/
theorem complement_twice_in_table (c : Int) (h0 : 0 ≤ c) (h1 : c < 128) :
    complement_nucleotide (complement_nucleotide c) = c := by
  interval_cases c <;> decide

/-- C37: `complement_nucleotide` is an involution on every character, those
without a table entry and the negative ones included; consequently
`dna_reverse_complement` applied twice to any DNA sequence returns the
sequence. -/
theorem complement_involution :
    (∀ c : CChar, complement_nucleotide (complement_nucleotide c) = c) ∧
    (∀ d : dna, dna_reverse_complement (dna_reverse_complement d) = d) := by
  have hinv : ∀ c : CChar, complement_nucleotide (complement_nucleotide c) = c := by
    intro c
    by_cases h : 0 ≤ c ∧ c < 128
    · exact complement_twice_in_table c h.1 h.2
    · have hc : complement_nucleotide c = c := by
        unfold complement_nucleotide
        rw [if_neg]
        rintro ⟨h1, h2, -⟩
        exact h ⟨h1, h2⟩
      rw [hc, hc]
  refine ⟨hinv, ?_⟩
  intro d
  cases d with
  | mk data =>
    simp only [dna_reverse_complement, dna.mk.injEq, List.map_reverse, List.map_map,
      List.reverse_reverse]
    have : (complement_nucleotide ∘ complement_nucleotide) = id := by
      funext c
      exact hinv c
    rw [this, List.map_id]

end DnaExt
